import Mathlib

/-!
Verification of the WfExS-backend enactment core (`wfexs_backend/workflow.py`)
against its natural-language specification.

The development shallowly embeds the relevant parts of the source:

* the POSIX path manipulation used by `WF._fetchRemoteFile` (symlink-free
  filesystems, where `os.path.realpath` coincides with lexical normalisation
  of `..`/`.` components, exactly as Python's `posixpath._joinrealpath`
  resolves non-existent or non-link components);
* Python `str.format`-based placeholder substitution
  (`WF._formatStringFromPlaceHolders`);
* TRS tool-version selection (`WF.getWorkflowRepoFromTRS`);
* the `autoFill` branch of `WF.fetchInputs`;
* the marshall/unmarshall state machine (`WF.marshallConfig`,
  `WF.marshallStage`, `WF.marshallExecute`, `WF.marshallExport` and their
  unmarshalling counterparts, plus `WF.exportResults`).

Machine integers do not occur in the modelled fragment; timestamps are
modelled as natural numbers.
-/

namespace WfExS

/-! ## POSIX path model

Paths are strings.  A path is split into slash-separated components
(lists of characters); empty components (from duplicated slashes) are
dropped, as `posixpath` does.
-/

/-- One step of the slash-splitter: accumulates the current component and the
list of completed components, scanning from the right. -/
def splitStep (c : Char) (st : List Char × List (List Char)) :
    List Char × List (List Char) :=
  if c = '/' then ([], if st.1 = [] then st.2 else st.1 :: st.2)
  else (c :: st.1, st.2)

/-- Split a character list into its non-empty slash-separated components. -/
def splitSlash (l : List Char) : List (List Char) :=
  let st := l.foldr splitStep ([], [])
  if st.1 = [] then st.2 else st.1 :: st.2

/-- One step of lexical normalisation: `.` and empty components are dropped,
`..` pops the last component (a no-op at the root), anything else is pushed.
This is how Python's `os.path.realpath` treats components that are not
symbolic links. -/
def normStep (st : List (List Char)) (c : List Char) : List (List Char) :=
  if c = [] then st
  else if c = ['.'] then st
  else if c = ['.', '.'] then st.dropLast
  else st ++ [c]

/-- Lexically normalised component list of a path. -/
def normComps (l : List (List Char)) : List (List Char) :=
  l.foldl normStep []

/-- Render a component list back into an absolute path string's characters;
the empty list renders as the root `/`. -/
def renderChars (cs : List (List Char)) : List Char :=
  if cs = [] then ['/'] else cs.foldl (fun acc c => acc ++ '/' :: c) []

/-- `os.path.realpath` on a symlink-free filesystem: lexical normalisation
of the slash-separated components, rendered as an absolute path. -/
def realpathStr (s : String) : String :=
  String.mk (renderChars (normComps (splitSlash s.toList)))

/-- Python's `str.startswith`: plain string-prefix test (the first argument
is the prefix).  Note this is a character-wise prefix, so `/a/bc` starts
with `/a/b` even though `bc` is a different directory than `b`. -/
def strStartsWith (p s : String) : Bool :=
  p.toList.isPrefixOf s.toList

/-- `posixpath.join` for two arguments: an absolute second argument resets
the result; otherwise the parts are glued with a single `/` unless the
first part is empty or already ends in `/`. -/
def pyJoin (a b : String) : String :=
  if b.toList.head? = some '/' then b
  else if a = "" then b
  else if a.toList.getLast? = some '/' then a ++ b
  else a ++ "/" ++ b

/-- `posixpath.basename`: the characters after the last `/` (everything,
when there is no slash). -/
def pyBasename (s : String) : String :=
  String.mk (s.toList.foldl (fun acc c => if c = '/' then [] else acc ++ [c]) [])

/-- Parent of a normalised absolute path: drop the last component. -/
def pyDirname (s : String) : String :=
  String.mk (renderChars ((splitSlash s.toList).dropLast))

/-! ## `WF._fetchRemoteFile`: link-name computation (workflow.py:1334-1365)

The filesystem is abstracted by the three queries the code performs
(`os.path.islink`, `os.readlink`, `os.path.exists`). -/

/-- The filesystem queries issued by `WF._fetchRemoteFile`. -/
structure FetchFS where
  isLink : String → Bool
  readLink : String → String
  pathExists : String → Bool

/-- Lines 1335-1346: the preferred relative name after the jail check.
When the realpath of `inputDestDir/prettyRelname` does not start with the
realpath of `inputDestDir`, the name collapses to the basename of that
realpath. -/
def fetchPrettyRelname (inputDestDir prettyRelname : String) : String :=
  let realPrettyLocal := realpathStr (pyJoin inputDestDir prettyRelname)
  let realInputDestDir := realpathStr inputDestDir
  if strStartsWith realInputDestDir realPrettyLocal then prettyRelname
  else pyBasename realPrettyLocal

/-- Lines 1348-1355: whether local-name hardening is needed.  `src` is
`matContent.local`, the cached payload the link will point at. -/
def fetchHarden (fs : FetchFS) (inputDestDir prettyRelname src : String)
    (hardenPrettyLocal : Bool) : Bool :=
  let prettyLocal := pyJoin inputDestDir (fetchPrettyRelname inputDestDir prettyRelname)
  if hardenPrettyLocal then true
  else if fs.isLink prettyLocal then !(fs.readLink prettyLocal == src)
  else fs.pathExists prettyLocal

/-- Lines 1357-1361: the final link path; under hardening the sequence
prefix `pfx` (`str(lastInput) + "_"` at the call sites) is prepended to the
(possibly collapsed) relative name. -/
def fetchFinalLocal (fs : FetchFS) (inputDestDir prettyRelname src : String)
    (hardenPrettyLocal : Bool) (pfx : String) : String :=
  let rel := fetchPrettyRelname inputDestDir prettyRelname
  if fetchHarden fs inputDestDir prettyRelname src hardenPrettyLocal then
    pyJoin inputDestDir (pfx ++ rel)
  else pyJoin inputDestDir rel

/-- Lines 1363-1365 plus the result record of the non-`globExplode` branch
(lines 1407-1415): the `local` path of the produced `MaterializedContent`.
Modelled from the spec: `link_or_copy` (in `utils/contents.py`, not under
`src/`) "create[s] a symbolic link (or copy)" of the fetched payload at the
link path — per the source comment at line 1364 it hard-links or copies, so
it introduces no symlink, and like any creation syscall it succeeds only
when the destination's parent directory exists.  When the destination
already exists no copy is attempted and the content is produced as-is. -/
def fetchRemoteFileLocal (fs : FetchFS) (inputDestDir prettyRelname src : String)
    (hardenPrettyLocal : Bool) (pfx : String) : Option String :=
  let p := fetchFinalLocal fs inputDestDir prettyRelname src hardenPrettyLocal pfx
  if fs.pathExists p then some p
  else if fs.pathExists (pyDirname (realpathStr p)) then some p
  else none

/-! ### Lemmas about the path model -/

/-- A component that lexical normalisation pushes (neither empty nor a dot
component). -/
def Plain (c : List Char) : Prop := c ≠ [] ∧ c ≠ ['.'] ∧ c ≠ ['.', '.']

theorem normStep_plain {st : List (List Char)} {c : List Char} (h : Plain c) :
    normStep st c = st ++ [c] := by
  obtain ⟨h1, h2, h3⟩ := h
  simp [normStep, h1, h2, h3]

theorem foldr_splitStep_out (l : List Char) (S : List (List Char)) :
    l.foldr splitStep ([], S) =
      ((l.foldr splitStep ([], [])).1, (l.foldr splitStep ([], [])).2 ++ S) := by
  induction l with
  | nil => simp
  | cons c l ih =>
    simp only [List.foldr_cons, ih]
    rcases h : l.foldr splitStep ([], []) with ⟨cur, out⟩
    by_cases hc : c = '/'
    · by_cases hcur : cur = [] <;> simp [splitStep, hc, hcur]
    · simp [splitStep, hc]

theorem splitSlash_append_slash (xs ys : List Char) :
    splitSlash (xs ++ '/' :: ys) = splitSlash xs ++ splitSlash ys := by
  show splitSlash (xs ++ '/' :: ys) = _
  unfold splitSlash
  rw [show xs ++ '/' :: ys = xs ++ ('/' :: ys) from rfl, List.foldr_append]
  have hstep : ('/' :: ys).foldr splitStep ([], []) =
      ([], (if (ys.foldr splitStep ([], [])).1 = [] then (ys.foldr splitStep ([], [])).2
            else (ys.foldr splitStep ([], [])).1 :: (ys.foldr splitStep ([], [])).2)) := by
    simp [splitStep]
  rw [hstep, foldr_splitStep_out]
  rcases hx : xs.foldr splitStep ([], []) with ⟨curX, outX⟩
  by_cases hcur : curX = [] <;> simp [hcur]

theorem foldr_splitStep_slashfree {xs : List Char} (h : '/' ∉ xs)
    (st : List Char × List (List Char)) :
    xs.foldr splitStep st = (xs ++ st.1, st.2) := by
  induction xs with
  | nil => simp
  | cons c l ih =>
    have hc : c ≠ '/' := fun hc => h (hc ▸ List.mem_cons_self c l)
    have hl : '/' ∉ l := fun hm => h (List.mem_cons_of_mem c hm)
    simp [ih hl, splitStep, hc]

theorem splitSlash_slashfree {xs : List Char} (h : '/' ∉ xs) (hne : xs ≠ []) :
    splitSlash xs = [xs] := by
  unfold splitSlash
  rw [foldr_splitStep_slashfree h]
  simp [hne]

theorem splitSlash_nil : splitSlash [] = [] := rfl

/-- Prepending slash-free characters to a list whose head is not a slash
merges them into its first component. -/
theorem splitSlash_merge {xs ys : List Char} (hxs : '/' ∉ xs)
    {c : Char} {ys' : List Char} (hys : ys = c :: ys') (hc : c ≠ '/') :
    ∃ cur out, splitSlash ys = cur :: out ∧ cur ≠ [] ∧
      splitSlash (xs ++ ys) = (xs ++ cur) :: out := by
  rcases h : ys.foldr splitStep ([], []) with ⟨curY, outY⟩
  have hcur : curY ≠ [] := by
    subst hys
    rcases hy : ys'.foldr splitStep ([], []) with ⟨cur', out'⟩
    simp only [List.foldr_cons, hy, splitStep, if_neg hc] at h
    have : curY = c :: cur' := by
      have h1 := congrArg Prod.fst h
      simpa using h1.symm
    simp [this]
  refine ⟨curY, outY, ?_, hcur, ?_⟩
  · unfold splitSlash
    rw [h]
    simp [hcur]
  · unfold splitSlash
    rw [List.foldr_append, h, foldr_splitStep_slashfree hxs]
    simp [hcur]

/-- Components produced by `splitSlash` are non-empty and slash-free. -/
theorem splitSlash_chunks (l : List Char) :
    '/' ∉ (l.foldr splitStep ([], [])).1 ∧
      ∀ ch ∈ (l.foldr splitStep ([], [])).2, ch ≠ [] ∧ '/' ∉ ch := by
  induction l with
  | nil => simp
  | cons c l ih =>
    rcases h : l.foldr splitStep ([], []) with ⟨cur, out⟩
    rw [h] at ih
    simp only [List.foldr_cons, h]
    by_cases hc : c = '/'
    · subst hc
      by_cases hcur : cur = [] <;> simp_all [splitStep]
    · simp only [splitStep, if_neg hc, List.mem_cons, not_or]
      exact ⟨⟨fun h => hc h.symm, ih.1⟩, ih.2⟩

theorem splitSlash_mem (l : List Char) {ch : List Char} (h : ch ∈ splitSlash l) :
    ch ≠ [] ∧ '/' ∉ ch := by
  obtain ⟨h1, h2⟩ := splitSlash_chunks l
  unfold splitSlash at h
  rcases hf : l.foldr splitStep ([], []) with ⟨cur, out⟩
  rw [hf] at h h1 h2
  by_cases hcur : cur = []
  · exact h2 ch (by simpa [hcur] using h)
  · simp only [if_neg hcur] at h
    rcases List.mem_cons.mp h with rfl | hm
    · exact ⟨hcur, h1⟩
    · exact h2 ch hm

/-- A well-formed normalised component: pushable and slash-free. -/
def GoodComp (c : List Char) : Prop := Plain c ∧ '/' ∉ c

theorem normComps_goodFrom {st : List (List Char)} (hst : ∀ e ∈ st, GoodComp e)
    (l : List (List Char)) (hl : ∀ ch ∈ l, ch ≠ [] ∧ '/' ∉ ch) :
    ∀ e ∈ l.foldl normStep st, GoodComp e := by
  induction l generalizing st with
  | nil => simpa using hst
  | cons c l ih =>
    have hc := hl c (List.mem_cons_self c l)
    have hl' : ∀ ch ∈ l, ch ≠ [] ∧ '/' ∉ ch := fun ch hm => hl ch (List.mem_cons_of_mem c hm)
    refine ih ?_ hl'
    intro e he
    by_cases h1 : c = []
    · rw [normStep, if_pos h1] at he
      exact hst e he
    · by_cases h2 : c = ['.']
      · rw [normStep, if_neg h1, if_pos h2] at he
        exact hst e he
      · by_cases h3 : c = ['.', '.']
        · rw [normStep, if_neg h1, if_neg h2, if_pos h3] at he
          exact hst e (List.dropLast_subset st he)
        · rw [normStep, if_neg h1, if_neg h2, if_neg h3] at he
          rcases List.mem_append.mp he with hm | hm
          · exact hst e hm
          · rcases List.mem_singleton.mp hm with rfl
            exact ⟨⟨hc.1, h2, h3⟩, hc.2⟩

theorem normComps_good (l : List Char) :
    ∀ e ∈ normComps (splitSlash l), GoodComp e :=
  normComps_goodFrom (by simp) _ (fun ch hm => splitSlash_mem l hm)

/-! Rendering lemmas. -/

theorem renderChars_foldl_eq (cs : List (List Char)) (acc : List Char) :
    cs.foldl (fun acc c => acc ++ '/' :: c) acc =
      acc ++ cs.foldl (fun acc c => acc ++ '/' :: c) [] := by
  induction cs generalizing acc with
  | nil => simp
  | cons c cs ih =>
    simp only [List.foldl_cons, List.nil_append]
    rw [ih (acc ++ '/' :: c), ih ('/' :: c), List.append_assoc]

theorem renderChars_append (cs ds : List (List Char)) (hcs : cs ≠ []) :
    renderChars (cs ++ ds) =
      renderChars cs ++ ds.foldl (fun acc c => acc ++ '/' :: c) [] := by
  unfold renderChars
  rw [if_neg (by simp [hcs]), if_neg hcs, List.foldl_append, renderChars_foldl_eq _ (cs.foldl _ [])]

theorem renderChars_head (cs : List (List Char)) :
    ∃ t, renderChars cs = '/' :: t := by
  unfold renderChars
  by_cases hcs : cs = []
  · exact ⟨[], by simp [hcs]⟩
  · rcases cs with _ | ⟨c, cs'⟩
    · exact absurd rfl hcs
    · rw [if_neg hcs]
      rw [List.foldl_cons, renderChars_foldl_eq]
      exact ⟨_, rfl⟩

/-- The rendering of a component list is a string prefix of the rendering of
any extension of it. -/
theorem renderChars_isPrefixOf (cs ds : List (List Char)) :
    renderChars cs <+: renderChars (cs ++ ds) := by
  by_cases hcs : cs = []
  · subst hcs
    simp only [List.nil_append]
    obtain ⟨t, ht⟩ := renderChars_head ds
    rw [ht]
    show renderChars [] <+: _
    unfold renderChars
    simp only [if_pos rfl]
    exact ⟨t, rfl⟩
  · rw [renderChars_append cs ds hcs]
    exact List.prefix_append _ _

/-! Basename of a rendered normalised path. -/

theorem foldl_basename_slashfree {c : List Char} (h : '/' ∉ c) (acc : List Char) :
    c.foldl (fun acc c => if c = '/' then [] else acc ++ [c]) acc = acc ++ c := by
  induction c generalizing acc with
  | nil => simp
  | cons x c ih =>
    have hx : x ≠ '/' := fun hx => h (hx ▸ List.mem_cons_self x c)
    have hc : '/' ∉ c := fun hm => h (List.mem_cons_of_mem x hm)
    simp only [List.foldl_cons, if_neg hx]
    rw [ih hc]
    simp

theorem pyBasename_render (cs : List (List Char)) (hcs : ∀ e ∈ cs, GoodComp e) :
    pyBasename (String.mk (renderChars cs)) = String.mk (cs.getLastD []) := by
  show String.mk _ = _
  rcases List.eq_nil_or_concat cs with rfl | ⟨cs', c, rfl⟩
  · rfl
  · rw [List.concat_eq_append]
    have hc : GoodComp c := hcs c (by simp)
    have hrender : renderChars (cs' ++ [c]) =
        renderChars cs' ++ '/' :: c ∨
        renderChars (cs' ++ [c]) = '/' :: c := by
      by_cases hcs' : cs' = []
      · right
        subst hcs'
        show renderChars [c] = _
        unfold renderChars
        simp
      · left
        rw [renderChars_append cs' [c] hcs']
        simp
    have hfold : (renderChars (cs' ++ [c])).foldl
        (fun acc x => if x = '/' then [] else acc ++ [x]) [] = c := by
      rcases hrender with h | h <;> rw [h]
      · rw [List.foldl_append]
        simp only [List.foldl_cons, if_pos rfl]
        exact (foldl_basename_slashfree hc.2 []).trans (by simp)
      · simp only [List.foldl_cons, if_pos rfl]
        exact (foldl_basename_slashfree hc.2 []).trans (by simp)
    congr 1
    rw [show (String.mk (renderChars (cs' ++ [c]))).toList =
        renderChars (cs' ++ [c]) from rfl, hfold, List.getLastD_concat]

/-! The twin argument: two runs of the normaliser that differ only in one
plain component stay in lockstep. -/

/-- Two normaliser stacks that are equal, or differ exactly in one plain
component sitting right above the common base `s`. -/
def TwinStacks (s : List (List Char)) (x y : List Char)
    (a b : List (List Char)) : Prop :=
  a = b ∨ ∃ u, a = s ++ x :: u ∧ b = s ++ y :: u

theorem twinStacks_step {s : List (List Char)} {x y : List Char}
    {a b : List (List Char)} (h : TwinStacks s x y a b) (c : List Char) :
    TwinStacks s x y (normStep a c) (normStep b c) := by
  rcases h with rfl | ⟨u, rfl, rfl⟩
  · exact Or.inl rfl
  by_cases h1 : c = []
  · exact Or.inr ⟨u, by simp [normStep, h1]⟩
  by_cases h2 : c = ['.']
  · exact Or.inr ⟨u, by simp [normStep, h1, h2]⟩
  by_cases h3 : c = ['.', '.']
  · rcases List.eq_nil_or_concat u with rfl | ⟨u', w, rfl⟩
    · left
      simp only [normStep, if_neg h1, if_neg h2, if_pos h3]
      rw [show s ++ [x] = s ++ [x] from rfl, List.dropLast_concat,
        List.dropLast_concat]
    · right
      refine ⟨u', ?_, ?_⟩ <;>
        simp only [normStep, if_neg h1, if_neg h2, if_pos h3,
          List.concat_eq_append, ← List.append_assoc, ← List.cons_append] <;>
        rw [List.dropLast_concat]
  · right
    refine ⟨u ++ [c], ?_, ?_⟩ <;>
      simp [normStep, h1, h2, h3]

theorem twinStacks_foldl {s : List (List Char)} {x y : List Char}
    {a b : List (List Char)} (h : TwinStacks s x y a b)
    (l : List (List Char)) :
    TwinStacks s x y (l.foldl normStep a) (l.foldl normStep b) := by
  induction l generalizing a b with
  | nil => exact h
  | cons c l ih => exact ih (twinStacks_step h c)

/-! Joining and prefix transport to strings. -/

theorem strStartsWith_mk {a b : List Char} :
    strStartsWith (String.mk a) (String.mk b) = true ↔ a <+: b := by
  show (String.mk a).toList.isPrefixOf (String.mk b).toList = true ↔ _
  rw [show (String.mk a).toList = a from rfl, show (String.mk b).toList = b from rfl]
  exact List.isPrefixOf_iff_prefix

theorem splitSlash_pyJoin (a b : String) (hb : b.toList.head? ≠ some '/') :
    splitSlash (pyJoin a b).toList = splitSlash a.toList ++ splitSlash b.toList := by
  unfold pyJoin
  rw [if_neg hb]
  by_cases ha : a = ""
  · rw [if_pos ha]
    subst ha
    rfl
  · rw [if_neg ha]
    by_cases hl : a.toList.getLast? = some '/'
    · rw [if_pos hl]
      obtain ⟨l', hl'⟩ := List.getLast?_eq_some_iff.mp hl
      rw [show (a ++ b).toList = a.toList ++ b.toList from String.data_append a b, hl']
      rw [List.append_assoc, List.singleton_append, splitSlash_append_slash]
      have h2 : splitSlash (l' ++ ['/']) = splitSlash l' := by
        rw [show l' ++ ['/'] = l' ++ '/' :: [] from rfl, splitSlash_append_slash,
          splitSlash_nil, List.append_nil]
      rw [h2]
    · rw [if_neg hl]
      rw [show (a ++ "/" ++ b).toList = (a ++ "/").toList ++ b.toList from
        String.data_append _ b]
      rw [show (a ++ "/").toList = a.toList ++ ['/'] from String.data_append a "/"]
      rw [List.append_assoc, List.singleton_append, splitSlash_append_slash]

theorem realpath_pyJoin (a b : String) (hb : b.toList.head? ≠ some '/') :
    realpathStr (pyJoin a b) =
      String.mk (renderChars ((splitSlash b.toList).foldl normStep
        (normComps (splitSlash a.toList)))) := by
  unfold realpathStr
  rw [splitSlash_pyJoin a b hb]
  unfold normComps
  rw [List.foldl_append]

/-- Anything obtained from the normalised input directory by pushing further
components renders to a string that starts with the input directory's
realpath. -/
theorem realpath_extension_startsWith (D : String) (ds : List (List Char)) :
    strStartsWith (realpathStr D)
      (String.mk (renderChars (normComps (splitSlash D.toList) ++ ds))) = true := by
  unfold realpathStr
  exact strStartsWith_mk.mpr (renderChars_isPrefixOf _ ds)

/-- A nonempty list of slash-free characters that is neither `"."` nor
`".."` splits into itself as a single plain component. -/
theorem splitSlash_single {c : List Char} (hne : c ≠ []) (hsf : '/' ∉ c)
    (h1 : c ≠ ['.']) (h2 : c ≠ ['.', '.']) :
    splitSlash c = [c] ∧ Plain c :=
  ⟨splitSlash_slashfree hsf hne, hne, h1, h2⟩

theorem prefix_of_single {l : List Char} {a : Char} (h : l <+: [a]) :
    l = [] ∨ l = [a] := by
  rcases l with _ | ⟨x, t⟩
  · exact Or.inl rfl
  · obtain ⟨rfl, ht⟩ := List.cons_prefix_cons.mp h
    rw [List.prefix_nil.mp ht]
    exact Or.inr rfl

theorem prefix_of_pair {l : List Char} {a b : Char} (h : l <+: [a, b]) :
    l = [] ∨ l = [a] ∨ l = [a, b] := by
  rcases l with _ | ⟨x, t⟩
  · exact Or.inl rfl
  · obtain ⟨rfl, ht⟩ := List.cons_prefix_cons.mp h
    rcases prefix_of_single ht with rfl | rfl
    · exact Or.inr (Or.inl rfl)
    · exact Or.inr (Or.inr rfl)

/-- Prepending a sequence prefix (no slash, not `""`/`"."`/`".."`) to any
slash-free component gives a plain component. -/
theorem prefixed_plain {p c : List Char} (hp : p ≠ []) (hp1 : p ≠ ['.'])
    (hp2 : p ≠ ['.', '.']) :
    Plain (p ++ c) := by
  refine ⟨by simp [hp], ?_, ?_⟩
  · intro h
    rcases prefix_of_single (h ▸ List.prefix_append p c) with h' | h'
    · exact hp h'
    · exact hp1 h'
  · intro h
    rcases prefix_of_pair (h ▸ List.prefix_append p c) with h' | h' | h'
    · exact hp h'
    · exact hp1 h'
    · exact hp2 h'

theorem toList_append (a b : String) : (a ++ b).toList = a.toList ++ b.toList :=
  String.data_append a b

theorem mk_toList (s : String) : String.mk s.toList = s := by
  cases s
  rfl

theorem toList_ne_of_ne {s t : String} (h : s ≠ t) : s.toList ≠ t.toList :=
  fun hh => h (by rw [← mk_toList s, ← mk_toList t, hh])

/-- Bool-valued check that a component list does not start with a dot
component; `splitSlash` components are never empty, so this means the first
component of the corresponding path is a normal name. -/
def plainHeadB : List (List Char) → Bool
  | [] => true
  | c :: _ => decide (c ≠ ['.']) && decide (c ≠ ['.', '.'])

/-- Claim C2 (amended): for every `MaterializedContent` whose `local` path is
produced by the `_fetchRemoteFile` link-name computation from a relative
preferred name whose first path component is a normal name (not `.` or `..`),
the realpath of the local path starts with the realpath of the inputs
destination directory (Python's `startswith`, i.e. string prefix), the
sequence-number prefix being applied on collision and out-of-jail names being
collapsed to their basename.  The counterexample `claim_C2_counterexample`
shows the unamended claim fails when the hardening prefix is applied to a
checked name whose first component is `..`, because the jail check is not
re-run on the prefixed name. -/
theorem claim_C2_jail_amended
    (fs : FetchFS) (D rel src : String) (h0 : Bool) (pfx : String) (p : String)
    (hp1 : pfx ≠ "") (hp2 : pfx ≠ ".") (hp3 : pfx ≠ "..") (hp4 : '/' ∉ pfx.toList)
    (hr1 : rel.toList.head? ≠ some '/')
    (hr2 : plainHeadB (splitSlash rel.toList) = true)
    (hres : fetchRemoteFileLocal fs D rel src h0 pfx = some p) :
    strStartsWith (realpathStr D) (realpathStr p) = true := by
  -- the produced local path is the final name computed at lines 1357-1361
  have hfin : p = fetchFinalLocal fs D rel src h0 pfx := by
    simp only [fetchRemoteFileLocal] at hres
    split_ifs at hres <;> simp_all
  subst hfin
  -- character-level facts about the sequence prefix
  have hpfxL : pfx.toList ≠ [] := by
    simpa using toList_ne_of_ne hp1
  have hpfx1 : pfx.toList ≠ ['.'] := by
    simpa using toList_ne_of_ne hp2
  have hpfx2 : pfx.toList ≠ ['.', '.'] := by
    simpa using toList_ne_of_ne hp3
  obtain ⟨ph, pt, hph⟩ : ∃ ph pt, pfx.toList = ph :: pt := by
    rcases hl : pfx.toList with _ | ⟨ph, pt⟩
    · exact absurd hl hpfxL
    · exact ⟨ph, pt, rfl⟩
  have hphs : ph ≠ '/' := fun h => hp4 (hph ▸ h ▸ List.mem_cons_self ph pt)
  -- the collapsed basename is a slash-free final component
  have hFgood := normComps_good ((pyJoin D rel).toList)
  have hbase : pyBasename (realpathStr (pyJoin D rel)) =
      String.mk ((normComps (splitSlash (pyJoin D rel).toList)).getLastD []) :=
    pyBasename_render _ hFgood
  have hbcsf : '/' ∉ (normComps (splitSlash (pyJoin D rel).toList)).getLastD [] := by
    rcases List.eq_nil_or_concat (normComps (splitSlash (pyJoin D rel).toList))
      with hF | ⟨F', c, hF⟩
    · rw [hF]
      simp
    · rw [hF, List.concat_eq_append, List.getLastD_concat]
      exact (hFgood c (by rw [hF]; simp)).2
  have hpretty : fetchPrettyRelname D rel =
      if strStartsWith (realpathStr D) (realpathStr (pyJoin D rel)) then rel
      else pyBasename (realpathStr (pyJoin D rel)) := rfl
  have hfinal : fetchFinalLocal fs D rel src h0 pfx =
      if fetchHarden fs D rel src h0 then
        pyJoin D (pfx ++ fetchPrettyRelname D rel)
      else pyJoin D (fetchPrettyRelname D rel) := rfl
  by_cases hch : strStartsWith (realpathStr D) (realpathStr (pyJoin D rel)) = true
  · -- jail check passed: the preferred name is kept
    rcases hb : fetchHarden fs D rel src h0 with _ | _
    · -- no hardening: the produced path is exactly the checked one
      rw [hfinal, hb, if_neg (by simp), hpretty, if_pos hch]
      exact hch
    · -- hardening: the sequence prefix is glued onto the first component
      rw [hfinal, hb, if_pos rfl, hpretty, if_pos hch]
      rcases hrl : rel.toList with _ | ⟨c, ys'⟩
      · -- empty relative name: the prefix itself is the single new component
        have hz : (pfx ++ rel).toList.head? ≠ some '/' := by
          rw [toList_append, hrl, List.append_nil, hph]
          simp [hphs]
        rw [realpath_pyJoin D (pfx ++ rel) hz, toList_append, hrl, List.append_nil]
        rw [splitSlash_slashfree hp4 hpfxL]
        rw [List.foldl_cons, List.foldl_nil,
          normStep_plain ⟨hpfxL, hpfx1, hpfx2⟩]
        exact realpath_extension_startsWith D [pfx.toList]
      · -- non-empty relative name: merge the prefix into the head component
        have hc : c ≠ '/' := by
          rw [hrl] at hr1
          simpa using hr1
        obtain ⟨cur, out, hsplit, hcur, hmerge⟩ :=
          splitSlash_merge hp4 hrl hc
        have hcursf : '/' ∉ cur :=
          (splitSlash_mem rel.toList (hsplit ▸ List.mem_cons_self cur out)).2
        have hcurp : Plain cur := by
          rw [hsplit] at hr2
          simp only [plainHeadB, Bool.and_eq_true, decide_eq_true_eq] at hr2
          exact ⟨hcur, hr2.1, hr2.2⟩
        have hz : (pfx ++ rel).toList.head? ≠ some '/' := by
          rw [toList_append, hph]
          simp [hphs]
        rw [realpath_pyJoin D (pfx ++ rel) hz, toList_append, hmerge]
        have hF1 : realpathStr (pyJoin D rel) =
            String.mk (renderChars (out.foldl normStep
              (normComps (splitSlash D.toList) ++ [cur]))) := by
          rw [realpath_pyJoin D rel hr1, hsplit, List.foldl_cons,
            normStep_plain hcurp]
        have hppc : Plain (pfx.toList ++ cur) := prefixed_plain hpfxL hpfx1 hpfx2
        rw [List.foldl_cons, normStep_plain hppc]
        have htwin := twinStacks_foldl
          (s := normComps (splitSlash D.toList)) (x := cur) (y := pfx.toList ++ cur)
          (a := normComps (splitSlash D.toList) ++ [cur])
          (b := normComps (splitSlash D.toList) ++ [pfx.toList ++ cur])
          (Or.inr ⟨[], rfl, rfl⟩) out
        rcases htwin with heq | ⟨u, hu1, hu2⟩
        · rw [← heq]
          rw [hF1] at hch
          exact hch
        · rw [hu2]
          exact realpath_extension_startsWith D ((pfx.toList ++ cur) :: u)
  · -- jail check failed: collapse to the basename of the realpath
    have hch' : strStartsWith (realpathStr D) (realpathStr (pyJoin D rel)) = false :=
      Bool.not_eq_true _ ▸ (by simpa using hch)
    rcases hb : fetchHarden fs D rel src h0 with _ | _
    · -- collapsed, unhardened
      rw [hfinal, hb, if_neg (by simp), hpretty, hch', if_neg (by simp)]
      rw [hbase]
      rcases List.eq_nil_or_concat (normComps (splitSlash (pyJoin D rel).toList))
        with hF | ⟨F', c, hF⟩
      · have hbc : (normComps (splitSlash (pyJoin D rel).toList)).getLastD [] = [] := by
          rw [hF]
          rfl
        rw [hbc]
        have hz : (String.mk ([] : List Char)).toList.head? ≠ some '/' := by simp
        rw [realpath_pyJoin D _ hz]
        rw [show (String.mk ([] : List Char)).toList = [] from rfl, splitSlash_nil,
          List.foldl_nil]
        simpa using realpath_extension_startsWith D []
      · rw [hF, List.concat_eq_append, List.getLastD_concat]
        have hcg : GoodComp c := hFgood c (by rw [hF]; simp)
        obtain ⟨ch, ct, hct⟩ : ∃ ch ct, c = ch :: ct := by
          rcases hcc : c with _ | ⟨ch, ct⟩
          · exact absurd hcc hcg.1.1
          · exact ⟨ch, ct, rfl⟩
        have hchs : ch ≠ '/' := fun h => hcg.2 (hct ▸ h ▸ List.mem_cons_self ch ct)
        have hz : (String.mk c).toList.head? ≠ some '/' := by
          rw [show (String.mk c).toList = c from rfl, hct]
          simp [hchs]
        rw [realpath_pyJoin D _ hz, show (String.mk c).toList = c from rfl]
        rw [splitSlash_slashfree hcg.2 hcg.1.1, List.foldl_cons, List.foldl_nil,
          normStep_plain hcg.1]
        exact realpath_extension_startsWith D [c]
    · -- collapsed and hardened: prefix glued onto the collapsed basename
      rw [hfinal, hb, if_pos rfl, hpretty, hch', if_neg (by simp)]
      rw [hbase]
      have hz : (pfx ++ String.mk
          ((normComps (splitSlash (pyJoin D rel).toList)).getLastD [])).toList.head?
            ≠ some '/' := by
        rw [toList_append, hph]
        simp [hphs]
      rw [realpath_pyJoin D _ hz, toList_append]
      rw [show (String.mk ((normComps (splitSlash (pyJoin D rel).toList)).getLastD
        [])).toList = (normComps (splitSlash (pyJoin D rel).toList)).getLastD []
        from rfl]
      have hcomb : Plain (pfx.toList ++
          (normComps (splitSlash (pyJoin D rel).toList)).getLastD []) :=
        prefixed_plain hpfxL hpfx1 hpfx2
      have hcombsf : '/' ∉ pfx.toList ++
          (normComps (splitSlash (pyJoin D rel).toList)).getLastD [] := by
        rw [List.mem_append]
        rintro (h | h)
        · exact hp4 h
        · exact hbcsf h
      rw [splitSlash_slashfree hcombsf hcomb.1, List.foldl_cons, List.foldl_nil,
        normStep_plain hcomb]
      exact realpath_extension_startsWith D [_]

/-- A filesystem state exercising the unchecked hardening path: the inputs
directory is `/a/b/c`; an earlier fetch left `/a/b/c/x` behind (so the
preferred name collides and hardening fires), the directory `/a/b/c/1_..`
exists, and so does `/a/b/a/b/c` (the parent the hardened link resolves
into, so `link_or_copy` succeeds).  There are no symbolic links. -/
def c2FS : FetchFS :=
  { isLink := fun _ => false
    readLink := fun _ => ""
    pathExists := fun q => realpathStr q ∈ ["/a/b/c/x", "/a/b/a/b/c"] }

/-- Claim C2, counterexample: with inputs directory `/a/b/c` and preferred
name `../../../a/b/c/x`, the jail check passes (its realpath `/a/b/c/x`
starts with `/a/b/c`), but on collision the hardened link
`/a/b/c/1_../../../a/b/c/x` is produced whose realpath `/a/b/a/b/c/x`
neither starts with the realpath of the inputs directory nor lies in the
shared cache: the sequence-number prefix is applied after the jail check
and the prefixed name is never re-checked. -/
theorem claim_C2_counterexample :
    fetchRemoteFileLocal c2FS "/a/b/c" "../../../a/b/c/x" "/cachedir/item" false "1_"
        = some "/a/b/c/1_../../../a/b/c/x"
    ∧ strStartsWith (realpathStr "/a/b/c")
        (realpathStr "/a/b/c/1_../../../a/b/c/x") = false
    ∧ strStartsWith (realpathStr "/cachedir")
        (realpathStr "/a/b/c/1_../../../a/b/c/x") = false := by
  refine ⟨by decide, by decide, by decide⟩

/-- A plain filesystem for the witness: only the inputs directory exists. -/
def c2wFS : FetchFS :=
  { isLink := fun _ => false
    readLink := fun _ => ""
    pathExists := fun q => realpathStr q ∈ ["/work/inputs"] }

/-- Witness for `claim_C2_jail_amended` at a concrete input. -/
theorem claim_C2_witness :
    fetchRemoteFileLocal c2wFS "/work/inputs" "data.txt" "/cache/x" false "1_"
        = some "/work/inputs/data.txt"
    ∧ strStartsWith (realpathStr "/work/inputs")
        (realpathStr "/work/inputs/data.txt") = true :=
  ⟨by decide,
    claim_C2_jail_amended c2wFS "/work/inputs" "data.txt" "/cache/x" false "1_"
      "/work/inputs/data.txt" (by decide) (by decide) (by decide) (by decide)
      (by decide) (by decide) (by decide)⟩

/-! ## Claim C8: name hardening on preferred-name collisions -/

theorem pyJoin_rel_toList (a z : String) (hz : z.toList.head? ≠ some '/') :
    (pyJoin a z).toList =
      (if a = "" then [] else
        if a.toList.getLast? = some '/' then a.toList else a.toList ++ ['/'])
      ++ z.toList := by
  unfold pyJoin
  rw [if_neg hz]
  by_cases ha : a = ""
  · rw [if_pos ha, if_pos ha]
    simp
  · rw [if_neg ha, if_neg ha]
    by_cases hl : a.toList.getLast? = some '/'
    · rw [if_pos hl, if_pos hl, toList_append]
    · rw [if_neg hl, if_neg hl, toList_append, toList_append]
      simp

/-- Claim C8: when an earlier fetch already left a link with the preferred
name pointing at a different cached source, the next fetch of that name is
hardened: its link path is the preferred name with the sequence prefix
(`str(lastInput) + "_"` at the call sites, here any non-empty slash-free
prefix) prepended, so the two `MaterializedContent` records carry distinct
local paths; and (with the `hardenPrettyLocal` parameter at its default
`False`) hardening fires exactly when an existing link of that name points
at a different source, or a non-link entry of that name exists. -/
theorem claim_C8_name_hardening
    (fs : FetchFS) (D rel src1 src2 pfx p : String)
    (hpfx : pfx ≠ "") (hpfxsf : '/' ∉ pfx.toList)
    (hlink : fs.isLink (pyJoin D rel) = true)
    (htarget : fs.readLink (pyJoin D rel) = src1)
    (hne : src2 ≠ src1)
    (hch : strStartsWith (realpathStr D) (realpathStr (pyJoin D rel)) = true)
    (hrel : rel.toList.head? ≠ some '/')
    (hres : fetchRemoteFileLocal fs D rel src2 false pfx = some p) :
    p = pyJoin D (pfx ++ rel) ∧ p ≠ pyJoin D rel ∧
      ∀ (fs' : FetchFS) (src : String),
        (fetchHarden fs' D rel src false = true ↔
          (fs'.isLink (pyJoin D rel) = true ∧ fs'.readLink (pyJoin D rel) ≠ src) ∨
          (fs'.isLink (pyJoin D rel) = false ∧
            fs'.pathExists (pyJoin D rel) = true)) := by
  have hpr : fetchPrettyRelname D rel = rel := by
    rw [show fetchPrettyRelname D rel =
      if strStartsWith (realpathStr D) (realpathStr (pyJoin D rel)) then rel
      else pyBasename (realpathStr (pyJoin D rel)) from rfl, if_pos hch]
  have hhdef : ∀ (fs' : FetchFS) (src : String), fetchHarden fs' D rel src false =
      if fs'.isLink (pyJoin D rel) then !(fs'.readLink (pyJoin D rel) == src)
      else fs'.pathExists (pyJoin D rel) := by
    intro fs' src
    rw [show fetchHarden fs' D rel src false =
      if fs'.isLink (pyJoin D (fetchPrettyRelname D rel)) then
        !(fs'.readLink (pyJoin D (fetchPrettyRelname D rel)) == src)
      else fs'.pathExists (pyJoin D (fetchPrettyRelname D rel)) from rfl, hpr]
  have hh : fetchHarden fs D rel src2 false = true := by
    have hne' : ¬ src1 = src2 := fun h => hne h.symm
    rw [hhdef, hlink, htarget]
    simp [hne']
  have hpfxL : pfx.toList ≠ [] := by simpa using toList_ne_of_ne hpfx
  have hzrel : (pfx ++ rel).toList.head? ≠ some '/' := by
    rcases hl : pfx.toList with _ | ⟨ph, pt⟩
    · exact absurd hl hpfxL
    · have hph : ph ≠ '/' := fun h => hpfxsf (hl ▸ h ▸ List.mem_cons_self ph pt)
      rw [toList_append, hl]
      simp [hph]
  have hp : p = pyJoin D (pfx ++ rel) := by
    have hfin : p = fetchFinalLocal fs D rel src2 false pfx := by
      simp only [fetchRemoteFileLocal] at hres
      split_ifs at hres <;> simp_all
    rw [hfin, show fetchFinalLocal fs D rel src2 false pfx =
      if fetchHarden fs D rel src2 false then
        pyJoin D (pfx ++ fetchPrettyRelname D rel)
      else pyJoin D (fetchPrettyRelname D rel) from rfl, hh, if_pos rfl, hpr]
  refine ⟨hp, ?_, ?_⟩
  · rw [hp]
    intro hcontra
    have h1 := congrArg String.toList hcontra
    rw [pyJoin_rel_toList D (pfx ++ rel) hzrel, pyJoin_rel_toList D rel hrel,
      toList_append] at h1
    have h2 := List.append_cancel_left h1
    have h3 := congrArg List.length h2
    rw [List.length_append] at h3
    have : pfx.toList.length = 0 := by omega
    exact hpfxL (List.length_eq_zero.mp this)
  · intro fs' src
    rw [hhdef]
    rcases hlk : fs'.isLink (pyJoin D rel) with _ | _
    · simp
    · simp [beq_iff_eq]

/-- The filesystem after a first fetch of `f.txt` from `/cache/a`: the
preferred link exists and points at `/cache/a`; the inputs directory
`/w/in` exists. -/
def c8FS : FetchFS :=
  { isLink := fun q => q == "/w/in/f.txt"
    readLink := fun _ => "/cache/a"
    pathExists := fun q => realpathStr q ∈ ["/w/in"] }

/-- Witness for `claim_C8_name_hardening` at a concrete input: fetching
`f.txt` again from the distinct source `/cache/b` produces the hardened
link `/w/in/1_f.txt`. -/
theorem claim_C8_witness :
    fetchRemoteFileLocal c8FS "/w/in" "f.txt" "/cache/b" false "1_"
        = some "/w/in/1_f.txt"
    ∧ ("/w/in/1_f.txt" : String) = pyJoin "/w/in" ("1_" ++ "f.txt")
    ∧ ("/w/in/1_f.txt" : String) ≠ pyJoin "/w/in" "f.txt" := by
  have h := claim_C8_name_hardening c8FS "/w/in" "f.txt" "/cache/a" "/cache/b"
    "1_" "/w/in/1_f.txt" (by decide) (by decide) (by decide) (by decide)
    (by decide) (by decide) (by decide) (by decide)
  exact ⟨by decide, h.1, h.2.1⟩

/-! ## Claim C7: placeholder substitution (`WF._formatStringFromPlaceHolders`,
workflow.py:1419-1436)

Python's `str.format(**placeholders)` is modelled for plain `{name}`
replacement fields: `{{` and `}}` are escapes, a lone `}` and an unterminated
or nested `{` are format errors, and an undefined name is a lookup error.
Replacement fields with conversions or format specs do not occur in the
spec's placeholder tables and are treated as lookup failures. -/

/-- Errors `str.format` can raise: malformed format string (`ValueError`)
or a placeholder missing from the table (`KeyError`). -/
inductive FmtErr where
  | malformed
  | missingKey
  deriving DecidableEq, Repr

deriving instance DecidableEq for Except

/-- Fuel-indexed core of `str.format`; the fuel is at least the number of
remaining characters plus one at every call, so it never runs out. -/
def pyFormatAux (pl : List (String × String)) : Nat → List Char →
    Except FmtErr (List Char)
  | 0, _ => .error .malformed
  | _ + 1, [] => .ok []
  | fuel + 1, c :: rest =>
    if c = '{' then
      match rest with
      | '{' :: rest' => (fun t => '{' :: t) <$> pyFormatAux pl fuel rest'
      | _ =>
        let nm := rest.takeWhile (fun x => x ≠ '}')
        match rest.dropWhile (fun x => x ≠ '}') with
        | [] => .error .malformed
        | _ :: tail =>
          if '{' ∈ nm then .error .malformed
          else
            match (pl.find? (fun kv => kv.1 == String.mk nm)).map Prod.snd with
            | some v => (fun t => v.toList ++ t) <$> pyFormatAux pl fuel tail
            | none => .error .missingKey
    else if c = '}' then
      match rest with
      | '}' :: rest' => (fun t => '}' :: t) <$> pyFormatAux pl fuel rest'
      | _ => .error .malformed
    else (fun t => c :: t) <$> pyFormatAux pl fuel rest

/-- `the_string.format(**placeholders)`. -/
def pyFormat (pl : List (String × String)) (s : String) : Except FmtErr String :=
  (pyFormatAux pl (s.toList.length + 1) s.toList).map String.mk

/-- Python's `str.find` for a single character: index of the first
occurrence, `-1` when absent. -/
def pyFindChar (s : String) (c : Char) : Int :=
  if c ∈ s.toList then (s.toList.indexOf c : Int) else -1

/-- `WF._formatStringFromPlaceHolders` (lines 1419-1436): when the first `{`
and a `}` exist with the `{` strictly earlier, attempt `str.format` and on
any failure log a warning and keep the original string; otherwise return the
string unchanged.  The bare `except` makes the Python function total. -/
def formatStringFromPlaceHolders (pl : List (String × String)) (the_string : String) :
    String :=
  let i_l := pyFindChar the_string '{'
  let i_r := pyFindChar the_string '}'
  if i_l ≠ -1 ∧ i_r ≠ -1 ∧ i_l < i_r then
    match pyFormat pl the_string with
    | .ok r => r
    | .error _ => the_string
  else the_string

/-- Claim C7, counterexample: the string `"}}{x}"` contains the placeholder
pattern `{x}` and `x` is defined, and Python formatting succeeds on it
(yielding `"}a"`, since `}}` is an escape), yet the function returns the
original string unchanged: the guard compares the index of the first `{`
(2) with the index of the first `}` (0) and skips formatting. -/
theorem claim_C7_counterexample :
    formatStringFromPlaceHolders [("x", "a")] "\x7d\x7d{x}" = "\x7d\x7d{x}"
    ∧ pyFormat [("x", "a")] "\x7d\x7d{x}" = .ok "\x7da"
    ∧ ("\x7da" : String) ≠ "\x7d\x7d{x}"
    ∧ "{x}".toList <:+: "\x7d\x7d{x}".toList := by
  refine ⟨by decide, by decide, by decide, by decide⟩

/-- Claim C7 (amended): `_formatStringFromPlaceHolders` never raises, and
whenever the first `{` occurs strictly before the first `}` (both present)
it returns the formatted string if `str.format` succeeds and the original
string unchanged if `str.format` fails (unresolvable placeholder or
malformed pattern — the bare `except` also swallows format errors); for
strings failing that guard the original is returned unchanged.  Totality of
the Lean function is the never-raises part. -/
theorem claim_C7_placeholders (pl : List (String × String)) (s : String) :
    (pyFindChar s '{' ≠ -1 ∧ pyFindChar s '}' ≠ -1 ∧
        pyFindChar s '{' < pyFindChar s '}' →
      (∀ r, pyFormat pl s = .ok r → formatStringFromPlaceHolders pl s = r) ∧
      (∀ e, pyFormat pl s = .error e → formatStringFromPlaceHolders pl s = s))
    ∧ (¬ (pyFindChar s '{' ≠ -1 ∧ pyFindChar s '}' ≠ -1 ∧
          pyFindChar s '{' < pyFindChar s '}') →
        formatStringFromPlaceHolders pl s = s) := by
  constructor
  · intro hguard
    constructor
    · intro r hr
      unfold formatStringFromPlaceHolders
      rw [if_pos hguard, hr]
    · intro e he
      unfold formatStringFromPlaceHolders
      rw [if_pos hguard, he]
  · intro hguard
    unfold formatStringFromPlaceHolders
    rw [if_neg hguard]

/-- Witness for `claim_C7_placeholders` at a concrete input: `"{x}"` with
`x ↦ "a"` formats to `"a"`. -/
theorem claim_C7_witness :
    pyFormat [("x", "a")] "{x}" = .ok "a"
    ∧ formatStringFromPlaceHolders [("x", "a")] "{x}" = "a" :=
  ⟨by decide,
    (claim_C7_placeholders [("x", "a")] "{x}").1 (by decide) |>.1 "a" (by decide)⟩

/-! ## Claim C3: TRS tool-version selection
(`WF.getWorkflowRepoFromTRS`, workflow.py:3205-3245, and `WF.__init__`,
workflow.py:404-406) -/

/-- Python `str()` applied to an `Optional[str]`: `str(None)` is the string
`"None"`.  `WF.__init__` stores `str(version_id)` in `self.version_id`
(line 405). -/
def pyStrOpt : Option String → String
  | none => "None"
  | some s => s

/-- One record of the `versions` array of a TRS tool descriptor; the code
reads `str(v.get("id", ""))` and `str(v.get("name", ""))`. -/
structure TRSToolVersion where
  id : String
  name : String
  deriving DecidableEq, Repr

/-- Failures of the version-selection block, raised as `WFException`s with
distinct messages. -/
inductive TRSSelectErr where
  | versionNotFound
  | noValidVersion
  deriving DecidableEq, Repr

/-- Python string `<`: lexicographic comparison by code points. -/
def pyStrLtChars : List Char → List Char → Bool
  | [], [] => false
  | [], _ :: _ => true
  | _ :: _, [] => false
  | x :: xs, y :: ys => if x < y then true else if y < x then false else pyStrLtChars xs ys

/-- Python string `<` on `String`. -/
def pyStrLt (a b : String) : Bool := pyStrLtChars a.toList b.toList

/-- Lines 3229-3238: the `else` branch that scans for the lexicographically
greatest non-empty version id, raising `WFException` "No valid version was
found" (line 3240) when every id is empty. -/
def selectMaxVersion (versions : List TRSToolVersion) :
    Except TRSSelectErr TRSToolVersion :=
  let best := versions.foldl
    (fun acc v =>
      if v.id.length > 0 && pyStrLt acc.2 v.id then (some v, v.id) else acc)
    ((none : Option TRSToolVersion), "")
  match best.1 with
  | some v => .ok v
  | none => .error .noValidVersion

/-- Lines 3205-3245: select the tool version.  With a non-empty
`self.version_id` the first record whose `id` or `name` equals it is taken
(`WFException` "Version ... not found" otherwise, also for an empty
`versions` array); with `version_id` `None` or empty the record with the
lexicographically greatest non-empty version id wins. -/
def selectToolVersion (version_id : Option String)
    (versions : List TRSToolVersion) : Except TRSSelectErr TRSToolVersion :=
  if versions.isEmpty then .error .versionNotFound
  else
    match version_id with
    | some vid =>
      if vid.length > 0 then
        match versions.find? (fun v => vid == v.id || vid == v.name) with
        | some v => .ok v
        | none => .error .versionNotFound
      else selectMaxVersion versions
    | none => selectMaxVersion versions

/-- Claim C3 is right about the selection logic but the code breaks it for a
`WF` constructed with `version_id=None`: the constructor stores
`str(None) = "None"`, so the TRS resolution looks for a version literally
named `"None"` and raises the version-not-found error instead of taking the
lexicographically greatest version id.  This theorem evaluates the embedded
code at the failing input: with versions `1.0` and `2.0`, an absent
`version_id` (reachable only through `unmarshallConfig`) selects `2.0` as
the claim states, a supplied `version_id` is matched by id or name, but the
constructor value `pyStrOpt none` makes the selection fail. -/
theorem claim_C3_version_selection :
    selectToolVersion (some (pyStrOpt none))
        [⟨"1.0", ""⟩, ⟨"2.0", ""⟩] = .error .versionNotFound
    ∧ selectToolVersion none [⟨"1.0", ""⟩, ⟨"2.0", ""⟩] = .ok ⟨"2.0", ""⟩
    ∧ selectToolVersion (some "1.0") [⟨"1.0", ""⟩, ⟨"2.0", ""⟩] = .ok ⟨"1.0", ""⟩
    ∧ selectToolVersion (some "v2") [⟨"1.0", "v1"⟩, ⟨"2.0", "v2"⟩]
        = .ok ⟨"2.0", "v2"⟩
    ∧ pyStrOpt none = "None" := by
  refine ⟨by decide, by decide, by decide, by decide, rfl⟩

/-! ## Claim C6: autoFill resolution against the outputs directory
(`WF.fetchInputs`, workflow.py:1662-1691) -/

/-- Python-level errors surfacing from the embedded `fetchInputs` branch. -/
inductive PyErr where
  | typeError
  deriving DecidableEq, Repr

/-- `os.path.join(base, *parts)`: fold the parts onto the base. -/
def pyJoinAll (base : String) (parts : List String) : String :=
  parts.foldl pyJoin base

/-- Python `linearKey.split(".")`: every chunk between dots, empties kept. -/
def pySplitDot (s : String) : List String :=
  let st := s.toList.foldr
    (fun c st => if c = '.' then (([] : List Char), String.mk st.1 :: st.2)
                 else (c :: st.1, st.2))
    (([] : List Char), ([] : List String))
  String.mk st.1 :: st.2

/-- `os.path.join(base, parts)` where `parts` is a Python `list` passed as a
single positional argument: `os.fspath` rejects it with
`TypeError: join() argument must be str, bytes, or os.PathLike object,
not 'list'`. -/
def pyJoinListArg (base : String) (parts : List String) : Except PyErr String :=
  .error .typeError

/-- Lines 1662-1691 of `fetchInputs`, the `autoFill` handling for a `File`
or `Directory` input spec: returns `some` materialized-value path (recorded
without any fetch), `none` when the spec is not auto-filled, or the Python
error the branch raises.  `path_tokens` is `linearKey.split(".")`; the
`Directory` branch joins with `*path_tokens` (line 1668) while the `File`
branch passes the list itself (line 1682). -/
def autoFillValue (outputsDir linearKey inputClass : String)
    (autoFill autoPrefix : Bool) : Except PyErr (Option String) :=
  let path_tokens := pySplitDot linearKey
  if inputClass = "Directory" then
    if autoFill then
      if autoPrefix then .ok (some (pyJoinAll outputsDir path_tokens))
      else .ok (some outputsDir)
    else .ok none
  else if inputClass = "File" ∧ autoFill then
    match pyJoinListArg outputsDir path_tokens with
    | .error e => .error e
    | .ok autoFilledFile => .ok (some autoFilledFile)
  else .ok none

/-- Claim C6: the `Directory` cases behave as claimed (`autoPrefix=true`
resolves to `outputs/<linear-key components>` and `autoPrefix=false` to the
outputs directory itself, recorded without a fetch), but the `File` branch
is broken: line 1682 passes the Python list `path_tokens` to
`os.path.join` without unpacking it (the `Directory` branch at line 1668
uses `*path_tokens`), so a `File` spec with `autoFill=true` raises
`TypeError` instead of yielding `outputs/<components>` with parents
created.  The theorem evaluates the embedded code at the failing input. -/
theorem claim_C6_autofill :
    autoFillValue "/w/outputs" "run.outdir" "Directory" true true
        = .ok (some "/w/outputs/run/outdir")
    ∧ autoFillValue "/w/outputs" "run.outdir" "Directory" true false
        = .ok (some "/w/outputs")
    ∧ autoFillValue "/w/outputs" "run.outfile" "File" true true
        = .error .typeError
    ∧ pyJoinAll "/w/outputs" (pySplitDot "run.outfile")
        = "/w/outputs/run/outfile" := by
  refine ⟨by decide, by decide, by decide, by decide⟩

/-! ## The marshalling state machine
(`WF.marshallConfig`/`unmarshallConfig` workflow.py:2172-2362,
`WF.marshallStage`/`unmarshallStage` 2364-2481,
`WF.marshallExecute`/`unmarshallExecute` 2483-2582,
`WF.marshallExport`/`unmarshallExport` 2584-2681,
`WF.exportResults` 2063-2170)

Domain values that the marshalling control flow never inspects (params,
outputs, engine fingerprints, repo coordinates, ...) are represented by
`String` atoms; timestamps are naturals.  The filesystem is the four files
of the instance's `meta/` directory. -/

/-- One `MarshallingStatus` field value: `False` (attempted and damaged) or
a `datetime` (successful marshalling, `os.path.getctime` as UTC); the
in-memory attribute is `Option MarshalVal`, `none` being Python `None`. -/
inductive MarshalVal where
  | b (v : Bool)
  | ts (t : Nat)
  deriving DecidableEq, Repr

/-- Python truthiness of an `Optional[Union[bool, datetime]]`. -/
def truthyM : Option MarshalVal → Bool
  | none => false
  | some (.b v) => v
  | some (.ts _) => true

/-- One entry of `default_actions`, together with the outcome its
`try` block in `exportResults` (locate items, resolve security context,
instantiate plugin, `push`) would have: `some m` means the push succeeds
producing the `MaterializedExportAction` `m`, `none` means it raises. -/
structure ExportActionM where
  action_id : String
  outcome : Option String
  deriving DecidableEq, Repr

/-- The dictionary `marshallConfig` dumps into `workflow_meta.yaml`
(lines 2191-2213); optional keys are written only when the attribute is not
`None`, which `Option` captures.  `schema_valid` abstracts the result of
`config_validate(workflow_meta, STAGE_DEFINITION_SCHEMA)` on this record.
The credentials table is deliberately not part of this record, mirroring
lines 2219-2224. -/
structure WorkflowMetaContent where
  workflow_id : String
  paranoid_mode : Bool
  nickname : Option String
  version : Option String
  workflow_type : Option String
  trs_endpoint : Option String
  workflow_config : Option String
  params : Option String
  placeholders : Option String
  outputs : Option String
  default_actions : Option (List ExportActionM)
  schema_valid : Bool
  deriving DecidableEq, Repr

/-- Abstraction of a `MaterializedWorkflowEngine`. -/
structure EngineRepr where
  fingerprint : String
  containers : String
  deriving DecidableEq, Repr

/-- The dictionary `marshallStage` dumps into `stage-state.yaml`
(lines 2393-2406).  `setup_engine_ok` abstracts whether
`setupEngine(offline=True)` (line 2466) succeeds when this record is read
back; records written by `marshallStage` re-setup their own engine. -/
structure StageFileData where
  repoURL : Option String
  repoTag : Option String
  repoRelPath : Option String
  repoEffectiveCheckout : Option String
  engineDesc : Option String
  engineVer : Option String
  materializedEngine : EngineRepr
  containers : String
  containerEngineVersion : Option String
  workflowEngineVersion : Option String
  materializedParams : Option String
  setup_engine_ok : Bool
  deriving DecidableEq, Repr

/-- The dictionary `marshallExecute` dumps (lines 2508-2513). -/
structure ExecFileData where
  exitVal : Option Int
  augmentedInputs : Option String
  matCheckOutputs : Option String
  deriving DecidableEq, Repr

/-- Parse outcomes of `workflow_meta.yaml`: `yamlNone` is a file
`yaml.safe_load` decodes to `None` (line 2257), `parseError` any file on
which loading/unmarshalling raises. -/
inductive ConfigContent where
  | yamlNone
  | parseError
  | content (c : WorkflowMetaContent)
  deriving DecidableEq, Repr

inductive StageContent where
  | parseError
  | content (d : StageFileData)
  deriving DecidableEq, Repr

inductive ExecContent where
  | parseError
  | content (d : ExecFileData)
  deriving DecidableEq, Repr

inductive ExportContent where
  | parseError
  | content (d : List String)
  deriving DecidableEq, Repr

/-- One file under `meta/`, with both stat timestamps: the code reads
`os.path.getctime`, the spec speaks of the mtime; a freshly written file has
both equal, but a pre-existing file re-opened from disk need not. -/
structure MetaFile (α : Type) where
  content : α
  mtime : Nat
  ctime : Nat
  sizeZero : Bool
  deriving DecidableEq, Repr

/-- The four marshalled files of the `meta/` directory. -/
structure MetaDir where
  configFile : Option (MetaFile ConfigContent)
  stageFile : Option (MetaFile StageContent)
  executionFile : Option (MetaFile ExecContent)
  exportFile : Option (MetaFile ExportContent)
  deriving DecidableEq, Repr

/-- Filesystem plus a clock supplying stat times for new writes. -/
structure World where
  fs : MetaDir
  now : Nat
  deriving DecidableEq, Repr

/-- The `WF` attributes the marshalling pipeline reads and writes.
`metaDir` is `self.metaDir is not None` (every method asserts it). -/
structure WFState where
  metaDir : Bool
  instanceId : String
  id : String
  paranoidMode : Bool
  nickname : Option String
  version_id : Option String
  descriptor_type : Option String
  trs_endpoint : Option String
  workflow_config : Option String
  params : Option String
  placeholders : Option String
  outputs : Option String
  default_actions : Option (List ExportActionM)
  meta_schema_valid : Bool
  creds_config : List (String × String)
  repoURL : Option String
  repoTag : Option String
  repoRelPath : Option String
  repoEffectiveCheckout : Option String
  engineDesc : Option String
  engineVer : Option String
  materializedEngine : Option EngineRepr
  containerEngineVersion : Option String
  workflowEngineVersion : Option String
  materializedParams : Option String
  exitVal : Option Int
  augmentedInputs : Option String
  matCheckOutputs : Option String
  runExportActions : Option (List String)
  configMarshalled : Option MarshalVal
  stageMarshalled : Option MarshalVal
  executionMarshalled : Option MarshalVal
  exportMarshalled : Option MarshalVal
  deriving DecidableEq, Repr

/-- Exceptions the marshalling pipeline raises. -/
inductive WFErr where
  | wfException
  | assertionError
  | exportActionException
  deriving DecidableEq, Repr

/-- Return value of a marshall/unmarshall method
(`Optional[Union[bool, datetime]]`). -/
abbrev MRet := Option MarshalVal

/-- State, world and outcome after running a method; Python mutations made
before an exception persist, so errors also carry the updated state. -/
abbrev OpResult := WFState × World × Except WFErr MRet

def writeConfigFile (w : World) (c : ConfigContent) : World :=
  { fs := { w.fs with configFile := some ⟨c, w.now, w.now, false⟩ }
    now := w.now + 1 }

def writeStageFile (w : World) (c : StageContent) : World :=
  { fs := { w.fs with stageFile := some ⟨c, w.now, w.now, false⟩ }
    now := w.now + 1 }

def writeExecutionFile (w : World) (c : ExecContent) : World :=
  { fs := { w.fs with executionFile := some ⟨c, w.now, w.now, false⟩ }
    now := w.now + 1 }

def writeExportFile (w : World) (c : ExportContent) : World :=
  { fs := { w.fs with exportFile := some ⟨c, w.now, w.now, false⟩ }
    now := w.now + 1 }

/-- Lines 2191-2213: the `workflow_meta` dictionary is built from the
instance attributes; the credentials table does not appear. -/
def buildWorkflowMeta (s : WFState) : WorkflowMetaContent :=
  { workflow_id := s.id
    paranoid_mode := s.paranoidMode
    nickname := s.nickname
    version := s.version_id
    workflow_type := s.descriptor_type
    trs_endpoint := s.trs_endpoint
    workflow_config := s.workflow_config
    params := s.params
    placeholders := s.placeholders
    outputs := s.outputs
    default_actions := s.default_actions
    schema_valid := s.meta_schema_valid }

/-- `WF.marshallConfig` (lines 2172-2230): rewrite `workflow_meta.yaml` when
`overwrite` is set or the file is absent or empty, then record
`datetime.fromtimestamp(os.path.getctime(file), utc)`. -/
def marshallConfigOp (overwrite : Bool) (s : WFState) (w : World) : OpResult :=
  if !s.metaDir then (s, w, .error .assertionError)
  else if overwrite ∨ s.configMarshalled = none then
    if overwrite ∨ w.fs.configFile = none ∨
        (w.fs.configFile.map MetaFile.sizeZero).getD false = true then
      let w1 := writeConfigFile w (.content (buildWorkflowMeta s))
      let s1 := { s with configMarshalled := some (.ts w.now) }
      (s1, w1, .ok s1.configMarshalled)
    else
      match w.fs.configFile with
      | some f =>
        let s1 := { s with configMarshalled := some (.ts f.ctime) }
        (s1, w, .ok s1.configMarshalled)
      | none => (s, w, .error .assertionError)
  else (s, w, .ok s.configMarshalled)

/-- Lines 2269-2302: the attribute assignments performed while reading
`workflow_meta.yaml` back (including the `nickname` default to the instance
id and the `workflow_type is None` fix-up, which `Option` absorbs). -/
def assignFromMeta (s : WFState) (c : WorkflowMetaContent) : WFState :=
  { s with
    id := c.workflow_id
    paranoidMode := c.paranoid_mode
    nickname := some (c.nickname.getD s.instanceId)
    version_id := c.version
    descriptor_type := c.workflow_type
    trs_endpoint := c.trs_endpoint
    workflow_config := c.workflow_config
    params := c.params
    placeholders := c.placeholders
    outputs := c.outputs
    default_actions := c.default_actions
    meta_schema_valid := c.schema_valid }

/-- `WF.unmarshallConfig` (lines 2232-2362).  Missing or `None`-decoding
files return `False` without touching the status; parse errors raise (or
return `None` under `fail_ok`); a loaded record assigns the attributes,
validates, resets the credentials table to `{}` (line 2356) and records the
file's ctime.  On a validation failure without `fail_ok` the exception is
raised after the attributes were already assigned and before the
credentials reset. -/
def unmarshallConfigOp (fail_ok : Bool) (s : WFState) (w : World) : OpResult :=
  if !s.metaDir then (s, w, .error .assertionError)
  else if s.configMarshalled ≠ none then (s, w, .ok s.configMarshalled)
  else
    match w.fs.configFile with
    | none => (s, w, .ok (some (.b false)))
    | some f =>
      match f.content with
      | .yamlNone => (s, w, .ok (some (.b false)))
      | .parseError =>
        if fail_ok then (s, w, .ok none)
        else (s, w, .error .wfException)
      | .content c =>
        let s1 := assignFromMeta s c
        if ¬ c.schema_valid ∧ ¬ fail_ok then (s1, w, .error .wfException)
        else
          let s2 := { s1 with creds_config := [],
                              configMarshalled := some (.ts f.ctime) }
          (s2, w, .ok (some (.ts f.ctime)))

/-- The `stage` dictionary of lines 2393-2406. -/
def buildStageData (s : WFState) (e : EngineRepr) : StageFileData :=
  { repoURL := s.repoURL
    repoTag := s.repoTag
    repoRelPath := s.repoRelPath
    repoEffectiveCheckout := s.repoEffectiveCheckout
    engineDesc := s.engineDesc
    engineVer := s.engineVer
    materializedEngine := e
    containers := e.containers
    containerEngineVersion := s.containerEngineVersion
    workflowEngineVersion := s.workflowEngineVersion
    materializedParams := s.materializedParams
    setup_engine_ok := true }

/-- `WF.marshallStage` (lines 2364-2421). -/
def marshallStageOp (exist_ok overwrite : Bool) (s : WFState) (w : World) :
    OpResult :=
  if overwrite ∨ s.stageMarshalled = none then
    match marshallConfigOp overwrite s w with
    | (s1, w1, .error e) => (s1, w1, .error e)
    | (s1, w1, .ok r1) =>
      if r1 = none then (s1, w1, .ok none)
      else if !s1.metaDir then (s1, w1, .error .assertionError)
      else if w1.fs.stageFile ≠ none ∧ ¬ overwrite ∧ ¬ exist_ok then
        (s1, w1, .error .wfException)
      else if w1.fs.stageFile = none ∨ overwrite then
        match s1.materializedEngine with
        | none => (s1, w1, .error .assertionError)
        | some e =>
          let w2 := writeStageFile w1 (.content (buildStageData s1 e))
          let s2 := { s1 with stageMarshalled := some (.ts w1.now) }
          (s2, w2, .ok s2.stageMarshalled)
      else
        match w1.fs.stageFile with
        | some f =>
          let s2 := { s1 with stageMarshalled := some (.ts f.ctime) }
          (s2, w1, .ok s2.stageMarshalled)
        | none => (s1, w1, .error .assertionError)
  else if ¬ exist_ok then (s, w, .error .wfException)
  else (s, w, .ok s.stageMarshalled)

/-- Lines 2454-2466: attribute assignments while reading
`stage-state.yaml` back. -/
def assignStage (s : WFState) (d : StageFileData) : WFState :=
  { s with
    repoURL := d.repoURL
    repoTag := d.repoTag
    repoRelPath := d.repoRelPath
    repoEffectiveCheckout := d.repoEffectiveCheckout
    engineDesc := d.engineDesc
    engineVer := d.engineVer
    materializedEngine := some d.materializedEngine
    materializedParams := d.materializedParams
    containerEngineVersion := d.containerEngineVersion
    workflowEngineVersion := d.workflowEngineVersion }

/-- `WF.unmarshallStage` (lines 2423-2481): nothing is attempted unless
`unmarshallConfig` returned a truthy value; a missing or unreadable stage
file sets the status to `False` and raises unless `fail_ok`. -/
def unmarshallStageOp (offline fail_ok : Bool) (s : WFState) (w : World) :
    OpResult :=
  if s.stageMarshalled ≠ none then (s, w, .ok s.stageMarshalled)
  else
    match unmarshallConfigOp fail_ok s w with
    | (s1, w1, .error e) => (s1, w1, .error e)
    | (s1, w1, .ok r1) =>
      if truthyM r1 = false then (s1, w1, .ok none)
      else if !s1.metaDir then (s1, w1, .error .assertionError)
      else
        match w1.fs.stageFile with
        | none =>
          let s2 := { s1 with stageMarshalled := some (.b false) }
          if fail_ok then (s2, w1, .ok (some (.b false)))
          else (s2, w1, .error .wfException)
        | some f =>
          match f.content with
          | .parseError =>
            let s2 := { s1 with stageMarshalled := some (.b false) }
            if fail_ok then (s2, w1, .ok (some (.b false)))
            else (s2, w1, .error .wfException)
          | .content d =>
            let s2 := assignStage s1 d
            if ¬ d.setup_engine_ok then
              let s3 := { s2 with stageMarshalled := some (.b false) }
              if fail_ok then (s3, w1, .ok (some (.b false)))
              else (s3, w1, .error .wfException)
            else
              let s3 := { s2 with stageMarshalled := some (.ts f.ctime) }
              (s3, w1, .ok s3.stageMarshalled)

/-- `WF.marshallExecute` (lines 2483-2529). -/
def marshallExecuteOp (exist_ok overwrite : Bool) (s : WFState) (w : World) :
    OpResult :=
  if overwrite ∨ s.executionMarshalled = none then
    match marshallStageOp exist_ok overwrite s w with
    | (s1, w1, .error e) => (s1, w1, .error e)
    | (s1, w1, .ok r1) =>
      if r1 = none then (s1, w1, .ok none)
      else if !s1.metaDir then (s1, w1, .error .assertionError)
      else if w1.fs.executionFile ≠ none ∧ ¬ overwrite ∧ ¬ exist_ok then
        (s1, w1, .error .wfException)
      else if w1.fs.executionFile = none ∨ overwrite then
        let w2 := writeExecutionFile w1 (.content
          ⟨s1.exitVal, s1.augmentedInputs, s1.matCheckOutputs⟩)
        let s2 := { s1 with executionMarshalled := some (.ts w1.now) }
        (s2, w2, .ok s2.executionMarshalled)
      else
        match w1.fs.executionFile with
        | some f =>
          let s2 := { s1 with executionMarshalled := some (.ts f.ctime) }
          (s2, w1, .ok s2.executionMarshalled)
        | none => (s1, w1, .error .assertionError)
  else if ¬ exist_ok then (s, w, .error .wfException)
  else (s, w, .ok s.executionMarshalled)

/-- `WF.unmarshallExecute` (lines 2531-2582). -/
def unmarshallExecuteOp (offline fail_ok : Bool) (s : WFState) (w : World) :
    OpResult :=
  if s.executionMarshalled ≠ none then (s, w, .ok s.executionMarshalled)
  else
    match unmarshallStageOp offline fail_ok s w with
    | (s1, w1, .error e) => (s1, w1, .error e)
    | (s1, w1, .ok r1) =>
      if truthyM r1 = false then (s1, w1, .ok none)
      else if !s1.metaDir then (s1, w1, .error .assertionError)
      else
        match w1.fs.executionFile with
        | none =>
          let s2 := { s1 with executionMarshalled := some (.b false) }
          if fail_ok then (s2, w1, .ok (some (.b false)))
          else (s2, w1, .error .wfException)
        | some f =>
          match f.content with
          | .parseError =>
            let s2 := { s1 with executionMarshalled := some (.b false) }
            if fail_ok then (s2, w1, .ok (some (.b false)))
            else (s2, w1, .error .wfException)
          | .content d =>
            let s2 := { s1 with
              exitVal := d.exitVal
              augmentedInputs := d.augmentedInputs
              matCheckOutputs := d.matCheckOutputs
              executionMarshalled := some (.ts f.ctime) }
            (s2, w1, .ok s2.executionMarshalled)

/-- `WF.marshallExport` (lines 2584-2631); a fresh write first defaults
`runExportActions` to the empty list (lines 2610-2611). -/
def marshallExportOp (exist_ok overwrite : Bool) (s : WFState) (w : World) :
    OpResult :=
  if overwrite ∨ s.exportMarshalled = none then
    match marshallStageOp exist_ok overwrite s w with
    | (s1, w1, .error e) => (s1, w1, .error e)
    | (s1, w1, .ok r1) =>
      if r1 = none then (s1, w1, .ok none)
      else if !s1.metaDir then (s1, w1, .error .assertionError)
      else if w1.fs.exportFile ≠ none ∧ ¬ overwrite ∧ ¬ exist_ok then
        (s1, w1, .error .wfException)
      else if w1.fs.exportFile = none ∨ overwrite then
        let s2 := { s1 with runExportActions := some (s1.runExportActions.getD []) }
        let w2 := writeExportFile w1 (.content (s2.runExportActions.getD []))
        let s3 := { s2 with exportMarshalled := some (.ts w1.now) }
        (s3, w2, .ok s3.exportMarshalled)
      else
        match w1.fs.exportFile with
        | some f =>
          let s2 := { s1 with exportMarshalled := some (.ts f.ctime) }
          (s2, w1, .ok s2.exportMarshalled)
        | none => (s1, w1, .error .assertionError)
  else if ¬ exist_ok then (s, w, .error .wfException)
  else (s, w, .ok s.exportMarshalled)

/-- `WF.unmarshallExport` (lines 2633-2681). -/
def unmarshallExportOp (offline fail_ok : Bool) (s : WFState) (w : World) :
    OpResult :=
  if s.exportMarshalled ≠ none then (s, w, .ok s.exportMarshalled)
  else
    match unmarshallStageOp offline fail_ok s w with
    | (s1, w1, .error e) => (s1, w1, .error e)
    | (s1, w1, .ok r1) =>
      if truthyM r1 = false then (s1, w1, .ok none)
      else if !s1.metaDir then (s1, w1, .error .assertionError)
      else
        match w1.fs.exportFile with
        | none =>
          let s2 := { s1 with exportMarshalled := some (.b false) }
          if fail_ok then (s2, w1, .ok (some (.b false)))
          else (s2, w1, .error .wfException)
        | some f =>
          match f.content with
          | .parseError =>
            let s2 := { s1 with exportMarshalled := some (.b false) }
            if fail_ok then (s2, w1, .ok (some (.b false)))
            else (s2, w1, .error .wfException)
          | .content d =>
            let s2 := { s1 with
              runExportActions := some d
              exportMarshalled := some (.ts f.ctime) }
            (s2, w1, .ok s2.exportMarshalled)

/-- Lines 2071-2076 of `exportResults`: the preconditions.
`unmarshallExport(offline=True, fail_ok=True)` returning `None` raises;
`unmarshallExecute(offline=True, fail_ok=True)` runs for its side effects. -/
def exportPrelude (s : WFState) (w : World) : WFState × World × Except WFErr Unit :=
  match unmarshallExportOp true true s w with
  | (s1, w1, .error e) => (s1, w1, .error e)
  | (s1, w1, .ok r1) =>
    if r1 = none then (s1, w1, .error .wfException)
    else
      match unmarshallExecuteOp true true s1 w1 with
      | (s2, w2, .error e) => (s2, w2, .error e)
      | (s2, w2, .ok _) => (s2, w2, .ok ())

/-- Lines 2088-2095: keep only the requested action ids (all actions when
none were requested). -/
def filterActions (action_ids : List String) (acts : List ExportActionM) :
    List ExportActionM :=
  if action_ids.length > 0 then
    acts.filter (fun a => action_ids.contains a.action_id)
  else acts

/-- `WF.exportResults` (lines 2063-2170): after the preconditions, resolve
the action list (falling back to `default_actions`), run every filtered
action collecting successes (`matActions`) and failures (`actionErrors`),
raise `ExportActionException` when there were failures and `fail_ok` is
unset, and only otherwise append the successes to `runExportActions` and
marshall them.  Returns the success and failure lists. -/
def exportResultsOp (actions : Option (List ExportActionM))
    (action_ids : List String) (fail_ok : Bool) (s : WFState) (w : World) :
    WFState × World × Except WFErr (List String × List String) :=
  match exportPrelude s w with
  | (s1, w1, .error e) => (s1, w1, .error e)
  | (s1, w1, .ok ()) =>
    match (match actions with | some a => some a | none => s1.default_actions) with
    | none => (s1, w1, .ok ([], []))
    | some acts =>
      let filtered := filterActions action_ids acts
      let matActions := filtered.filterMap (fun a => a.outcome)
      let actionErrors :=
        (filtered.filter (fun a => a.outcome.isNone)).map (fun a => a.action_id)
      if actionErrors.length > 0 ∧ ¬ fail_ok then
        (s1, w1, .error .exportActionException)
      else
        let s2 := { s1 with runExportActions := some ((s1.runExportActions.getD []) ++ matActions) }
        match marshallExportOp true (matActions.length > 0) s2 w1 with
        | (s3, w3, .error e) => (s3, w3, .error e)
        | (s3, w3, .ok _) => (s3, w3, .ok (matActions, actionErrors))

/-! ### Reachability

A state is reachable when it arises from a freshly constructed instance
(all four status fields `None`, or `configMarshalled = False` set by the
constructor on a damaged working directory, lines 540/562) by any sequence
of marshall/unmarshall/export operations with any flags, keeping the state
even when the operation raised (Python mutations persist across
exceptions). -/

inductive Reachable : WFState → World → Prop where
  | init (s : WFState) (w : World)
      (hc : s.configMarshalled = none ∨ s.configMarshalled = some (.b false))
      (hs : s.stageMarshalled = none) (he : s.executionMarshalled = none)
      (hx : s.exportMarshalled = none) : Reachable s w
  | marshallConfig (ov : Bool) {s w} (h : Reachable s w) :
      Reachable (marshallConfigOp ov s w).1 (marshallConfigOp ov s w).2.1
  | unmarshallConfig (fo : Bool) {s w} (h : Reachable s w) :
      Reachable (unmarshallConfigOp fo s w).1 (unmarshallConfigOp fo s w).2.1
  | marshallStage (eo ov : Bool) {s w} (h : Reachable s w) :
      Reachable (marshallStageOp eo ov s w).1 (marshallStageOp eo ov s w).2.1
  | unmarshallStage (off fo : Bool) {s w} (h : Reachable s w) :
      Reachable (unmarshallStageOp off fo s w).1 (unmarshallStageOp off fo s w).2.1
  | marshallExecute (eo ov : Bool) {s w} (h : Reachable s w) :
      Reachable (marshallExecuteOp eo ov s w).1 (marshallExecuteOp eo ov s w).2.1
  | unmarshallExecute (off fo : Bool) {s w} (h : Reachable s w) :
      Reachable (unmarshallExecuteOp off fo s w).1
        (unmarshallExecuteOp off fo s w).2.1
  | marshallExport (eo ov : Bool) {s w} (h : Reachable s w) :
      Reachable (marshallExportOp eo ov s w).1 (marshallExportOp eo ov s w).2.1
  | unmarshallExport (off fo : Bool) {s w} (h : Reachable s w) :
      Reachable (unmarshallExportOp off fo s w).1
        (unmarshallExportOp off fo s w).2.1
  | exportResults (acts : Option (List ExportActionM)) (ids : List String)
      (fo : Bool) {s w} (h : Reachable s w) :
      Reachable (exportResultsOp acts ids fo s w).1
        (exportResultsOp acts ids fo s w).2.1

/-- The `MarshallingStatus` prerequisite invariant: a set (non-`None`)
`stage` needs a set `config`, and set `execution`/`export` need a set
`stage`. -/
def MarshalInv (s : WFState) : Prop :=
  (s.stageMarshalled ≠ none → s.configMarshalled ≠ none)
  ∧ (s.executionMarshalled ≠ none → s.stageMarshalled ≠ none)
  ∧ (s.exportMarshalled ≠ none → s.stageMarshalled ≠ none)

/-! ### Field-tracking lemmas for the marshalling operations -/

theorem marshallConfigOp_fields {ov : Bool} {s : WFState} {w : World}
    {s' : WFState} {w' : World} {r : Except WFErr MRet}
    (h : marshallConfigOp ov s w = (s', w', r)) :
    s'.stageMarshalled = s.stageMarshalled
    ∧ s'.executionMarshalled = s.executionMarshalled
    ∧ s'.exportMarshalled = s.exportMarshalled
    ∧ (s'.configMarshalled = s.configMarshalled ∨ s'.configMarshalled ≠ none) := by
  unfold marshallConfigOp at h
  repeat' split at h
  all_goals
    simp only [Prod.mk.injEq] at h
    obtain ⟨rfl, rfl, rfl⟩ := h
    simp

theorem marshallConfigOp_ok {ov : Bool} {s : WFState} {w : World}
    {s' : WFState} {w' : World} {r : MRet}
    (h : marshallConfigOp ov s w = (s', w', .ok r)) :
    r = s'.configMarshalled ∧ r ≠ none := by
  unfold marshallConfigOp at h
  repeat' split at h
  all_goals
    simp only [Prod.mk.injEq] at h
    obtain ⟨rfl, rfl, hr⟩ := h
    first
      | (obtain rfl := Except.ok.inj hr
         simp_all)
      | (cases hr)

theorem unmarshallConfigOp_fields {fo : Bool} {s : WFState} {w : World}
    {s' : WFState} {w' : World} {r : Except WFErr MRet}
    (h : unmarshallConfigOp fo s w = (s', w', r)) :
    s'.stageMarshalled = s.stageMarshalled
    ∧ s'.executionMarshalled = s.executionMarshalled
    ∧ s'.exportMarshalled = s.exportMarshalled
    ∧ (s'.configMarshalled = s.configMarshalled ∨ s'.configMarshalled ≠ none) := by
  unfold unmarshallConfigOp at h
  repeat' split at h
  all_goals
    simp only [Prod.mk.injEq] at h
    obtain ⟨rfl, rfl, rfl⟩ := h
    simp [assignFromMeta]

theorem unmarshallConfigOp_ok_truthy {fo : Bool} {s : WFState} {w : World}
    {s' : WFState} {w' : World} {r : MRet}
    (h : unmarshallConfigOp fo s w = (s', w', .ok r))
    (ht : truthyM r = true) : s'.configMarshalled ≠ none := by
  unfold unmarshallConfigOp at h
  repeat' split at h
  all_goals
    simp only [Prod.mk.injEq] at h
    obtain ⟨rfl, rfl, hr⟩ := h
    first
      | (obtain rfl := Except.ok.inj hr
         simp_all [truthyM])
      | (cases hr)

/-- Field tracking shared by the stage-and-above operations. -/
def StageFields (s s' : WFState) : Prop :=
  s'.executionMarshalled = s.executionMarshalled
  ∧ s'.exportMarshalled = s.exportMarshalled
  ∧ (s'.configMarshalled = s.configMarshalled ∨ s'.configMarshalled ≠ none)
  ∧ (s'.stageMarshalled = s.stageMarshalled ∨
      (s'.stageMarshalled ≠ none ∧ s'.configMarshalled ≠ none))

theorem marshallStageOp_fields {eo ov : Bool} {s : WFState} {w : World}
    {s' : WFState} {w' : World} {r : Except WFErr MRet}
    (h : marshallStageOp eo ov s w = (s', w', r)) : StageFields s s' := by
  rcases hmc : marshallConfigOp ov s w with ⟨s1, w1, r1⟩
  obtain ⟨hf1, hf2, hf3, hf4⟩ := marshallConfigOp_fields hmc
  unfold marshallStageOp at h
  rw [hmc] at h
  rcases r1 with e | r1
  · dsimp only [] at h
    repeat' split at h
    all_goals
      simp only [Prod.mk.injEq] at h
      obtain ⟨rfl, rfl, rfl⟩ := h
      first
        | exact ⟨rfl, rfl, Or.inl rfl, Or.inl rfl⟩
        | exact ⟨hf2, hf3, hf4, Or.inl hf1⟩
  · have hcm : s1.configMarshalled ≠ none := by
      have hok := marshallConfigOp_ok hmc
      exact hok.1 ▸ hok.2
    dsimp only [] at h
    repeat' split at h
    all_goals
      simp only [Prod.mk.injEq] at h
      obtain ⟨rfl, rfl, rfl⟩ := h
      first
        | exact ⟨rfl, rfl, Or.inl rfl, Or.inl rfl⟩
        | exact ⟨hf2, hf3, hf4, Or.inl hf1⟩
        | exact ⟨hf2, hf3, Or.inr hcm, Or.inr ⟨by simp, hcm⟩⟩

theorem marshallStageOp_ok {eo ov : Bool} {s : WFState} {w : World}
    {s' : WFState} {w' : World} {r : MRet}
    (h : marshallStageOp eo ov s w = (s', w', .ok r)) :
    r = none ∨ (r = s'.stageMarshalled ∧ s'.stageMarshalled ≠ none) := by
  rcases hmc : marshallConfigOp ov s w with ⟨s1, w1, r1⟩
  unfold marshallStageOp at h
  rw [hmc] at h
  rcases r1 with e | r1
  · dsimp only [] at h
    repeat' split at h
    all_goals
      simp only [Prod.mk.injEq] at h
      obtain ⟨rfl, rfl, hr⟩ := h
      first
        | (obtain rfl := Except.ok.inj hr
           first
             | exact Or.inl rfl
             | (right
                constructor
                · rfl
                · simp_all))
        | (cases hr)
  · dsimp only [] at h
    repeat' split at h
    all_goals
      simp only [Prod.mk.injEq] at h
      obtain ⟨rfl, rfl, hr⟩ := h
      first
        | (obtain rfl := Except.ok.inj hr
           first
             | exact Or.inl rfl
             | (right
                constructor
                · rfl
                · simp_all))
        | (cases hr)

theorem unmarshallStageOp_fields {off fo : Bool} {s : WFState} {w : World}
    {s' : WFState} {w' : World} {r : Except WFErr MRet}
    (h : unmarshallStageOp off fo s w = (s', w', r)) : StageFields s s' := by
  rcases hmc : unmarshallConfigOp fo s w with ⟨s1, w1, r1⟩
  obtain ⟨hf1, hf2, hf3, hf4⟩ := unmarshallConfigOp_fields hmc
  unfold unmarshallStageOp at h
  rw [hmc] at h
  rcases r1 with e | r1
  · dsimp only [] at h
    repeat' split at h
    all_goals
      simp only [Prod.mk.injEq] at h
      obtain ⟨rfl, rfl, rfl⟩ := h
      first
        | exact ⟨rfl, rfl, Or.inl rfl, Or.inl rfl⟩
        | exact ⟨hf2, hf3, hf4, Or.inl hf1⟩
  · dsimp only [] at h
    repeat' split at h
    all_goals
      simp only [Prod.mk.injEq] at h
      obtain ⟨rfl, rfl, rfl⟩ := h
      first
        | exact ⟨rfl, rfl, Or.inl rfl, Or.inl rfl⟩
        | exact ⟨hf2, hf3, hf4, Or.inl hf1⟩
        | (refine ⟨hf2, hf3, Or.inr ?_, Or.inr ⟨by simp, ?_⟩⟩ <;>
            · show s1.configMarshalled ≠ none
              apply unmarshallConfigOp_ok_truthy hmc
              simp_all)

theorem unmarshallStageOp_ok_truthy {off fo : Bool} {s : WFState} {w : World}
    {s' : WFState} {w' : World} {r : MRet}
    (h : unmarshallStageOp off fo s w = (s', w', .ok r))
    (ht : truthyM r = true) : s'.stageMarshalled ≠ none := by
  rcases hmc : unmarshallConfigOp fo s w with ⟨s1, w1, r1⟩
  unfold unmarshallStageOp at h
  rw [hmc] at h
  rcases r1 with e | r1
  · dsimp only [] at h
    repeat' split at h
    all_goals
      simp only [Prod.mk.injEq] at h
      obtain ⟨rfl, rfl, hr⟩ := h
      first
        | (obtain rfl := Except.ok.inj hr
           simp_all [truthyM])
        | (cases hr)
  · dsimp only [] at h
    repeat' split at h
    all_goals
      simp only [Prod.mk.injEq] at h
      obtain ⟨rfl, rfl, hr⟩ := h
      first
        | (obtain rfl := Except.ok.inj hr
           simp_all [truthyM])
        | (cases hr)

/-- Field tracking for the execute-level operations. -/
def ExecFields (s s' : WFState) : Prop :=
  s'.exportMarshalled = s.exportMarshalled
  ∧ (s'.configMarshalled = s.configMarshalled ∨ s'.configMarshalled ≠ none)
  ∧ (s'.stageMarshalled = s.stageMarshalled ∨
      (s'.stageMarshalled ≠ none ∧ s'.configMarshalled ≠ none))
  ∧ (s'.executionMarshalled = s.executionMarshalled ∨
      (s'.executionMarshalled ≠ none ∧ s'.stageMarshalled ≠ none))

/-- Field tracking for the export-level operations. -/
def ExportFields (s s' : WFState) : Prop :=
  s'.executionMarshalled = s.executionMarshalled
  ∧ (s'.configMarshalled = s.configMarshalled ∨ s'.configMarshalled ≠ none)
  ∧ (s'.stageMarshalled = s.stageMarshalled ∨
      (s'.stageMarshalled ≠ none ∧ s'.configMarshalled ≠ none))
  ∧ (s'.exportMarshalled = s.exportMarshalled ∨
      (s'.exportMarshalled ≠ none ∧ s'.stageMarshalled ≠ none))

theorem marshallExecuteOp_fields {eo ov : Bool} {s : WFState} {w : World}
    {s' : WFState} {w' : World} {r : Except WFErr MRet}
    (h : marshallExecuteOp eo ov s w = (s', w', r)) : ExecFields s s' := by
  rcases hms : marshallStageOp eo ov s w with ⟨s1, w1, r1⟩
  obtain ⟨hf1, hf2, hf3, hf4⟩ := marshallStageOp_fields hms
  unfold marshallExecuteOp at h
  rw [hms] at h
  rcases r1 with e | r1
  · dsimp only [] at h
    repeat' split at h
    all_goals
      simp only [Prod.mk.injEq] at h
      obtain ⟨rfl, rfl, rfl⟩ := h
      first
        | exact ⟨rfl, Or.inl rfl, Or.inl rfl, Or.inl rfl⟩
        | exact ⟨hf2, hf3, hf4, Or.inl hf1⟩
  · have hso := marshallStageOp_ok hms
    dsimp only [] at h
    repeat' split at h
    all_goals
      simp only [Prod.mk.injEq] at h
      obtain ⟨rfl, rfl, rfl⟩ := h
      first
        | exact ⟨rfl, Or.inl rfl, Or.inl rfl, Or.inl rfl⟩
        | exact ⟨hf2, hf3, hf4, Or.inl hf1⟩
        | (refine ⟨hf2, hf3, hf4, Or.inr ⟨by simp, ?_⟩⟩
           rcases hso with hh | hh
           · simp_all
           · exact hh.2)

theorem unmarshallExecuteOp_fields {off fo : Bool} {s : WFState} {w : World}
    {s' : WFState} {w' : World} {r : Except WFErr MRet}
    (h : unmarshallExecuteOp off fo s w = (s', w', r)) : ExecFields s s' := by
  rcases hus : unmarshallStageOp off fo s w with ⟨s1, w1, r1⟩
  obtain ⟨hf1, hf2, hf3, hf4⟩ := unmarshallStageOp_fields hus
  unfold unmarshallExecuteOp at h
  rw [hus] at h
  rcases r1 with e | r1
  · dsimp only [] at h
    repeat' split at h
    all_goals
      simp only [Prod.mk.injEq] at h
      obtain ⟨rfl, rfl, rfl⟩ := h
      first
        | exact ⟨rfl, Or.inl rfl, Or.inl rfl, Or.inl rfl⟩
        | exact ⟨hf2, hf3, hf4, Or.inl hf1⟩
  · dsimp only [] at h
    repeat' split at h
    all_goals
      simp only [Prod.mk.injEq] at h
      obtain ⟨rfl, rfl, rfl⟩ := h
      first
        | exact ⟨rfl, Or.inl rfl, Or.inl rfl, Or.inl rfl⟩
        | exact ⟨hf2, hf3, hf4, Or.inl hf1⟩
        | (refine ⟨hf2, hf3, hf4, Or.inr ⟨by simp, ?_⟩⟩
           apply unmarshallStageOp_ok_truthy hus
           simp_all)

theorem marshallExportOp_fields {eo ov : Bool} {s : WFState} {w : World}
    {s' : WFState} {w' : World} {r : Except WFErr MRet}
    (h : marshallExportOp eo ov s w = (s', w', r)) : ExportFields s s' := by
  rcases hms : marshallStageOp eo ov s w with ⟨s1, w1, r1⟩
  obtain ⟨hf1, hf2, hf3, hf4⟩ := marshallStageOp_fields hms
  unfold marshallExportOp at h
  rw [hms] at h
  rcases r1 with e | r1
  · dsimp only [] at h
    repeat' split at h
    all_goals
      simp only [Prod.mk.injEq] at h
      obtain ⟨rfl, rfl, rfl⟩ := h
      first
        | exact ⟨rfl, Or.inl rfl, Or.inl rfl, Or.inl rfl⟩
        | exact ⟨hf1, hf3, hf4, Or.inl hf2⟩
  · have hso := marshallStageOp_ok hms
    dsimp only [] at h
    repeat' split at h
    all_goals
      simp only [Prod.mk.injEq] at h
      obtain ⟨rfl, rfl, rfl⟩ := h
      first
        | exact ⟨rfl, Or.inl rfl, Or.inl rfl, Or.inl rfl⟩
        | exact ⟨hf1, hf3, hf4, Or.inl hf2⟩
        | (refine ⟨hf1, hf3, hf4, Or.inr ⟨by simp, ?_⟩⟩
           rcases hso with hh | hh
           · simp_all
           · exact hh.2)

theorem unmarshallExportOp_fields {off fo : Bool} {s : WFState} {w : World}
    {s' : WFState} {w' : World} {r : Except WFErr MRet}
    (h : unmarshallExportOp off fo s w = (s', w', r)) : ExportFields s s' := by
  rcases hus : unmarshallStageOp off fo s w with ⟨s1, w1, r1⟩
  obtain ⟨hf1, hf2, hf3, hf4⟩ := unmarshallStageOp_fields hus
  unfold unmarshallExportOp at h
  rw [hus] at h
  rcases r1 with e | r1
  · dsimp only [] at h
    repeat' split at h
    all_goals
      simp only [Prod.mk.injEq] at h
      obtain ⟨rfl, rfl, rfl⟩ := h
      first
        | exact ⟨rfl, Or.inl rfl, Or.inl rfl, Or.inl rfl⟩
        | exact ⟨hf1, hf3, hf4, Or.inl hf2⟩
  · dsimp only [] at h
    repeat' split at h
    all_goals
      simp only [Prod.mk.injEq] at h
      obtain ⟨rfl, rfl, rfl⟩ := h
      first
        | exact ⟨rfl, Or.inl rfl, Or.inl rfl, Or.inl rfl⟩
        | exact ⟨hf1, hf3, hf4, Or.inl hf2⟩
        | (refine ⟨hf1, hf3, hf4, Or.inr ⟨by simp, ?_⟩⟩
           apply unmarshallStageOp_ok_truthy hus
           simp_all)

/-! ### The invariant is preserved by every operation -/

theorem marshalInv_of_configFields {s s' : WFState} (h : MarshalInv s)
    (hst : s'.stageMarshalled = s.stageMarshalled)
    (hex : s'.executionMarshalled = s.executionMarshalled)
    (hxp : s'.exportMarshalled = s.exportMarshalled)
    (hcf : s'.configMarshalled = s.configMarshalled ∨ s'.configMarshalled ≠ none) :
    MarshalInv s' := by
  obtain ⟨h1, h2, h3⟩ := h
  refine ⟨?_, ?_, ?_⟩
  · intro hs
    rcases hcf with hc | hc
    · rw [hc]
      exact h1 (hst ▸ hs)
    · exact hc
  · intro he
    rw [hst]
    exact h2 (hex ▸ he)
  · intro he
    rw [hst]
    exact h3 (hxp ▸ he)

theorem marshalInv_of_stageFields {s s' : WFState} (h : MarshalInv s)
    (hf : StageFields s s') : MarshalInv s' := by
  obtain ⟨h1, h2, h3⟩ := h
  obtain ⟨hf1, hf2, hf3, hf4⟩ := hf
  refine ⟨?_, ?_, ?_⟩
  · intro hs
    rcases hf4 with hst | hst
    · rcases hf3 with hc | hc
      · rw [hc]
        exact h1 (hst ▸ hs)
      · exact hc
    · exact hst.2
  · intro he
    rcases hf4 with hst | hst
    · rw [hst]
      exact h2 (hf1 ▸ he)
    · exact hst.1
  · intro he
    rcases hf4 with hst | hst
    · rw [hst]
      exact h3 (hf2 ▸ he)
    · exact hst.1

theorem marshalInv_of_execFields {s s' : WFState} (h : MarshalInv s)
    (hf : ExecFields s s') : MarshalInv s' := by
  obtain ⟨h1, h2, h3⟩ := h
  obtain ⟨hf1, hf2, hf3, hf4⟩ := hf
  refine ⟨?_, ?_, ?_⟩
  · intro hs
    rcases hf3 with hst | hst
    · rcases hf2 with hc | hc
      · rw [hc]
        exact h1 (hst ▸ hs)
      · exact hc
    · exact hst.2
  · intro he
    rcases hf4 with hee | hee
    · rcases hf3 with hst | hst
      · rw [hst]
        exact h2 (hee ▸ he)
      · exact hst.1
    · exact hee.2
  · intro he
    rcases hf3 with hst | hst
    · rw [hst]
      exact h3 (hf1 ▸ he)
    · exact hst.1

theorem marshalInv_of_exportFields {s s' : WFState} (h : MarshalInv s)
    (hf : ExportFields s s') : MarshalInv s' := by
  obtain ⟨h1, h2, h3⟩ := h
  obtain ⟨hf1, hf2, hf3, hf4⟩ := hf
  refine ⟨?_, ?_, ?_⟩
  · intro hs
    rcases hf3 with hst | hst
    · rcases hf2 with hc | hc
      · rw [hc]
        exact h1 (hst ▸ hs)
      · exact hc
    · exact hst.2
  · intro he
    rcases hf3 with hst | hst
    · rw [hst]
      exact h2 (hf1 ▸ he)
    · exact hst.1
  · intro he
    rcases hf4 with hee | hee
    · rcases hf3 with hst | hst
      · rw [hst]
        exact h3 (hee ▸ he)
      · exact hst.1
    · exact hee.2

theorem exportPrelude_inv {s : WFState} {w : World} {s1 : WFState} {w1 : World}
    {u : Except WFErr Unit} (h : MarshalInv s)
    (hp : exportPrelude s w = (s1, w1, u)) : MarshalInv s1 := by
  rcases hux : unmarshallExportOp true true s w with ⟨t1, v1, r1⟩
  have hi1 := marshalInv_of_exportFields h (unmarshallExportOp_fields hux)
  unfold exportPrelude at hp
  rw [hux] at hp
  rcases r1 with e | r1
  · dsimp only [] at hp
    simp only [Prod.mk.injEq] at hp
    obtain ⟨rfl, rfl, rfl⟩ := hp
    exact hi1
  · dsimp only [] at hp
    rcases huex : unmarshallExecuteOp true true t1 v1 with ⟨t2, v2, r2⟩
    rw [huex] at hp
    have hi2 := marshalInv_of_execFields hi1 (unmarshallExecuteOp_fields huex)
    by_cases hr1 : r1 = none
    · rw [if_pos hr1] at hp
      simp only [Prod.mk.injEq] at hp
      obtain ⟨rfl, rfl, rfl⟩ := hp
      exact hi1
    · rw [if_neg hr1] at hp
      rcases r2 with e2 | r2 <;>
        · dsimp only [] at hp
          simp only [Prod.mk.injEq] at hp
          obtain ⟨rfl, rfl, rfl⟩ := hp
          exact hi2

theorem exportResultsOp_inv {acts : Option (List ExportActionM)}
    {ids : List String} {fo : Bool} {s : WFState} {w : World}
    {s' : WFState} {w' : World} {r : Except WFErr (List String × List String)}
    (h : MarshalInv s) (he : exportResultsOp acts ids fo s w = (s', w', r)) :
    MarshalInv s' := by
  rcases hp : exportPrelude s w with ⟨s1, w1, u⟩
  have hi1 := exportPrelude_inv h hp
  unfold exportResultsOp at he
  rw [hp] at he
  rcases u with e | u
  · dsimp only [] at he
    simp only [Prod.mk.injEq] at he
    obtain ⟨rfl, rfl, rfl⟩ := he
    exact hi1
  · dsimp only [] at he
    repeat' split at he
    all_goals
      simp only [Prod.mk.injEq] at he
      obtain ⟨rfl, rfl, rfl⟩ := he
      first
        | exact hi1
        | (rename_i s3 w3 rv heq
           have hf := marshallExportOp_fields heq
           exact marshalInv_of_exportFields (show MarshalInv _ from hi1) hf)

/-- Claim C1: the marshalling prerequisites.  `unmarshallStage` returns
`None` unless `unmarshallConfig` returned a truthy value, and
`unmarshallExecute`/`unmarshallExport` return `None` unless
`unmarshallStage` returned a truthy value (the marshall direction is guarded
the same way through `marshallConfig`/`marshallStage`, whose failures
propagate as exceptions or `None`); consequently every reachable
`MarshallingStatus` satisfies the invariant: a set (non-absent) `stage`
field implies a set `config` field, and set `execution` or `export` fields
imply a set `stage` field. -/
theorem claim_C1_marshalling_prerequisites :
    (∀ (off fo : Bool) (s : WFState) (w : World) (s' : WFState) (w' : World)
        (v : MRet), s.stageMarshalled = none →
      unmarshallConfigOp fo s w = (s', w', .ok v) → truthyM v = false →
      unmarshallStageOp off fo s w = (s', w', .ok none))
    ∧ (∀ (off fo : Bool) (s : WFState) (w : World) (s' : WFState) (w' : World)
        (v : MRet), s.executionMarshalled = none →
      unmarshallStageOp off fo s w = (s', w', .ok v) → truthyM v = false →
      unmarshallExecuteOp off fo s w = (s', w', .ok none))
    ∧ (∀ (off fo : Bool) (s : WFState) (w : World) (s' : WFState) (w' : World)
        (v : MRet), s.exportMarshalled = none →
      unmarshallStageOp off fo s w = (s', w', .ok v) → truthyM v = false →
      unmarshallExportOp off fo s w = (s', w', .ok none))
    ∧ (∀ (s : WFState) (w : World), Reachable s w → MarshalInv s) := by
  refine ⟨?_, ?_, ?_, ?_⟩
  · intro off fo s w s' w' v hst huc ht
    unfold unmarshallStageOp
    rw [if_neg (by simp [hst]), huc]
    dsimp only []
    rw [if_pos ht]
  · intro off fo s w s' w' v hex hus ht
    unfold unmarshallExecuteOp
    rw [if_neg (by simp [hex]), hus]
    dsimp only []
    rw [if_pos ht]
  · intro off fo s w s' w' v hxp hus ht
    unfold unmarshallExportOp
    rw [if_neg (by simp [hxp]), hus]
    dsimp only []
    rw [if_pos ht]
  · intro s w hr
    induction hr with
    | init s w hc hs he hx =>
      exact ⟨fun h => absurd hs h, fun h => absurd he h, fun h => absurd hx h⟩
    | marshallConfig ov h ih =>
      rename_i s w
      rcases hmc : marshallConfigOp ov s w with ⟨s', w', r⟩
      obtain ⟨f1, f2, f3, f4⟩ := marshallConfigOp_fields hmc
      exact marshalInv_of_configFields ih f1 f2 f3 f4
    | unmarshallConfig fo h ih =>
      rename_i s w
      rcases huc : unmarshallConfigOp fo s w with ⟨s', w', r⟩
      obtain ⟨f1, f2, f3, f4⟩ := unmarshallConfigOp_fields huc
      exact marshalInv_of_configFields ih f1 f2 f3 f4
    | marshallStage eo ov h ih =>
      rename_i s w
      rcases hms : marshallStageOp eo ov s w with ⟨s', w', r⟩
      exact marshalInv_of_stageFields ih (marshallStageOp_fields hms)
    | unmarshallStage off fo h ih =>
      rename_i s w
      rcases hus : unmarshallStageOp off fo s w with ⟨s', w', r⟩
      exact marshalInv_of_stageFields ih (unmarshallStageOp_fields hus)
    | marshallExecute eo ov h ih =>
      rename_i s w
      rcases hme : marshallExecuteOp eo ov s w with ⟨s', w', r⟩
      exact marshalInv_of_execFields ih (marshallExecuteOp_fields hme)
    | unmarshallExecute off fo h ih =>
      rename_i s w
      rcases hue : unmarshallExecuteOp off fo s w with ⟨s', w', r⟩
      exact marshalInv_of_execFields ih (unmarshallExecuteOp_fields hue)
    | marshallExport eo ov h ih =>
      rename_i s w
      rcases hmx : marshallExportOp eo ov s w with ⟨s', w', r⟩
      exact marshalInv_of_exportFields ih (marshallExportOp_fields hmx)
    | unmarshallExport off fo h ih =>
      rename_i s w
      rcases hux : unmarshallExportOp off fo s w with ⟨s', w', r⟩
      exact marshalInv_of_exportFields ih (unmarshallExportOp_fields hux)
    | exportResults acts ids fo h ih =>
      rename_i s w
      rcases hE : exportResultsOp acts ids fo s w with ⟨s', w', r⟩
      exact exportResultsOp_inv ih hE

/-- A freshly constructed, undamaged instance with nothing marshalled. -/
def baseState : WFState :=
  { metaDir := true
    instanceId := "inst-0001"
    id := "wf-id"
    paranoidMode := false
    nickname := none
    version_id := none
    descriptor_type := none
    trs_endpoint := none
    workflow_config := none
    params := none
    placeholders := none
    outputs := none
    default_actions := none
    meta_schema_valid := true
    creds_config := []
    repoURL := none
    repoTag := none
    repoRelPath := none
    repoEffectiveCheckout := none
    engineDesc := none
    engineVer := none
    materializedEngine := none
    containerEngineVersion := none
    workflowEngineVersion := none
    materializedParams := none
    exitVal := none
    augmentedInputs := none
    matCheckOutputs := none
    runExportActions := none
    configMarshalled := none
    stageMarshalled := none
    executionMarshalled := none
    exportMarshalled := none }

/-- An empty `meta/` directory. -/
def emptyWorld : World := { fs := ⟨none, none, none, none⟩, now := 0 }

/-- Witness for `claim_C1_marshalling_prerequisites` at a concrete input: on
an empty `meta/` directory `unmarshallConfig` returns `False` (not truthy),
so `unmarshallStage` returns `None`; and the fresh state satisfies the
invariant. -/
theorem claim_C1_witness :
    unmarshallStageOp false false baseState emptyWorld
        = (baseState, emptyWorld, .ok none)
    ∧ MarshalInv baseState :=
  ⟨claim_C1_marshalling_prerequisites.1 false false baseState emptyWorld
      baseState emptyWorld (some (.b false)) rfl rfl rfl,
    claim_C1_marshalling_prerequisites.2.2.2 baseState emptyWorld
      (.init baseState emptyWorld (Or.inl rfl) rfl rfl rfl)⟩

theorem marshallConfigOp_ok_metaDir {ov : Bool} {s : WFState} {w : World}
    {s' : WFState} {w' : World} {r : MRet}
    (h : marshallConfigOp ov s w = (s', w', .ok r)) : s'.metaDir = true := by
  unfold marshallConfigOp at h
  repeat' split at h
  all_goals
    simp only [Prod.mk.injEq] at h
    obtain ⟨rfl, rfl, hr⟩ := h
    first
      | (obtain rfl := Except.ok.inj hr
         simp_all)
      | (cases hr)

theorem marshallExecuteOp_ok {eo ov : Bool} {s : WFState} {w : World}
    {s' : WFState} {w' : World} {r : MRet}
    (h : marshallExecuteOp eo ov s w = (s', w', .ok r)) :
    r = none ∨ (r = s'.executionMarshalled ∧ s'.executionMarshalled ≠ none) := by
  rcases hms : marshallStageOp eo ov s w with ⟨s1, w1, r1⟩
  unfold marshallExecuteOp at h
  rw [hms] at h
  rcases r1 with e | r1 <;>
    · dsimp only [] at h
      repeat' split at h
      all_goals
        simp only [Prod.mk.injEq] at h
        obtain ⟨rfl, rfl, hr⟩ := h
        first
          | (obtain rfl := Except.ok.inj hr
             first
               | exact Or.inl rfl
               | (right
                  constructor
                  · rfl
                  · simp_all))
          | (cases hr)

theorem marshallExportOp_ok {eo ov : Bool} {s : WFState} {w : World}
    {s' : WFState} {w' : World} {r : MRet}
    (h : marshallExportOp eo ov s w = (s', w', .ok r)) :
    r = none ∨ (r = s'.exportMarshalled ∧ s'.exportMarshalled ≠ none) := by
  rcases hms : marshallStageOp eo ov s w with ⟨s1, w1, r1⟩
  unfold marshallExportOp at h
  rw [hms] at h
  rcases r1 with e | r1 <;>
    · dsimp only [] at h
      repeat' split at h
      all_goals
        simp only [Prod.mk.injEq] at h
        obtain ⟨rfl, rfl, hr⟩ := h
        first
          | (obtain rfl := Except.ok.inj hr
             first
               | exact Or.inl rfl
               | (right
                  constructor
                  · rfl
                  · simp_all))
          | (cases hr)

/-- Claim C4: for every lifecycle stage, re-running `marshall(S)` with the
default flags (`exist_ok=True`, `overwrite=False`) after a success is a
no-op: the whole result (state, filesystem — hence the on-disk file and its
stat times — and returned in-memory timestamp) is exactly the same. -/
theorem claim_C4_marshall_idempotent :
    (∀ (s : WFState) (w : World) (s' : WFState) (w' : World) (t : Nat),
      marshallConfigOp false s w = (s', w', .ok (some (.ts t))) →
      marshallConfigOp false s' w' = (s', w', .ok (some (.ts t))))
    ∧ (∀ (s : WFState) (w : World) (s' : WFState) (w' : World) (t : Nat),
      marshallStageOp true false s w = (s', w', .ok (some (.ts t))) →
      marshallStageOp true false s' w' = (s', w', .ok (some (.ts t))))
    ∧ (∀ (s : WFState) (w : World) (s' : WFState) (w' : World) (t : Nat),
      marshallExecuteOp true false s w = (s', w', .ok (some (.ts t))) →
      marshallExecuteOp true false s' w' = (s', w', .ok (some (.ts t))))
    ∧ (∀ (s : WFState) (w : World) (s' : WFState) (w' : World) (t : Nat),
      marshallExportOp true false s w = (s', w', .ok (some (.ts t))) →
      marshallExportOp true false s' w' = (s', w', .ok (some (.ts t)))) := by
  refine ⟨?_, ?_, ?_, ?_⟩
  · intro s w s' w' t h
    have hok := marshallConfigOp_ok h
    have hmd := marshallConfigOp_ok_metaDir h
    have hc : s'.configMarshalled = some (.ts t) := hok.1.symm
    unfold marshallConfigOp
    rw [if_neg (by simp [hmd]), if_neg (by simp [hc]), hc]
  · intro s w s' w' t h
    rcases marshallStageOp_ok h with hn | ⟨heq, hne⟩
    · cases hn
    · have hst : s'.stageMarshalled = some (.ts t) := heq.symm
      unfold marshallStageOp
      rw [if_neg (by simp [hst]), if_neg (by simp), hst]
  · intro s w s' w' t h
    rcases marshallExecuteOp_ok h with hn | ⟨heq, hne⟩
    · cases hn
    · have hex : s'.executionMarshalled = some (.ts t) := heq.symm
      unfold marshallExecuteOp
      rw [if_neg (by simp [hex]), if_neg (by simp), hex]
  · intro s w s' w' t h
    rcases marshallExportOp_ok h with hn | ⟨heq, hne⟩
    · cases hn
    · have hxp : s'.exportMarshalled = some (.ts t) := heq.symm
      unfold marshallExportOp
      rw [if_neg (by simp [hxp]), if_neg (by simp), hxp]

/-- Witness for `claim_C4_marshall_idempotent` at a concrete input: a first
`marshallConfig` on an empty `meta/` directory writes the file and stores
timestamp 0; running it again changes nothing. -/
theorem claim_C4_witness :
    marshallConfigOp false baseState emptyWorld =
      ({ baseState with configMarshalled := some (.ts 0) },
        writeConfigFile emptyWorld (.content (buildWorkflowMeta baseState)),
        .ok (some (.ts 0)))
    ∧ marshallConfigOp false
        { baseState with configMarshalled := some (.ts 0) }
        (writeConfigFile emptyWorld (.content (buildWorkflowMeta baseState))) =
      ({ baseState with configMarshalled := some (.ts 0) },
        writeConfigFile emptyWorld (.content (buildWorkflowMeta baseState)),
        .ok (some (.ts 0))) :=
  ⟨rfl, claim_C4_marshall_idempotent.1 baseState emptyWorld _ _ 0 rfl⟩

/-- Claim C5: credentials are never persisted and never recovered.  The
`workflow_meta` record written by `marshallConfig` does not depend on the
credentials table (two instances differing only in `creds_config` produce
the identical file and return value), and a successful (actually performed,
i.e. not short-circuited on an already-unmarshalled instance)
`unmarshallConfig` leaves `creds_config` as the empty table whatever it was
before. -/
theorem claim_C5_credentials_never_persisted :
    (∀ (s : WFState) (c : List (String × String)),
      buildWorkflowMeta { s with creds_config := c } = buildWorkflowMeta s)
    ∧ (∀ (ov : Bool) (s : WFState) (w : World) (c : List (String × String)),
      (marshallConfigOp ov { s with creds_config := c } w).2 =
        (marshallConfigOp ov s w).2)
    ∧ (∀ (fo : Bool) (s : WFState) (w : World) (s' : WFState) (w' : World)
        (t : Nat), s.configMarshalled = none →
      unmarshallConfigOp fo s w = (s', w', .ok (some (.ts t))) →
      s'.creds_config = []) := by
  refine ⟨fun s c => rfl, ?_, ?_⟩
  · intro ov s w c
    simp only [marshallConfigOp, buildWorkflowMeta, writeConfigFile]
    split_ifs <;> first | rfl | (split <;> rfl)
  · intro fo s w s' w' t hs h
    unfold unmarshallConfigOp at h
    repeat' split at h
    all_goals
      simp only [Prod.mk.injEq] at h
      obtain ⟨rfl, rfl, hr⟩ := h
      first
        | (injection hr with heq
           first
             | rfl
             | simp_all [assignFromMeta])
        | (cases hr)

/-- A `workflow_meta.yaml` written from the base instance, with stat times
4/4, plus an otherwise empty `meta/` directory. -/
def c5World : World :=
  { fs := ⟨some ⟨.content (buildWorkflowMeta baseState), 4, 4, false⟩,
      none, none, none⟩
    now := 9 }

/-- An instance holding credentials in memory before re-opening. -/
def c5S : WFState := { baseState with creds_config := [("ctx", "secret")] }

/-- Witness for `claim_C5_credentials_never_persisted` at a concrete input:
re-opening from `c5World` wipes the in-memory credentials. -/
theorem claim_C5_witness :
    buildWorkflowMeta c5S = buildWorkflowMeta baseState
    ∧ (unmarshallConfigOp false c5S c5World).1.creds_config = [] :=
  ⟨claim_C5_credentials_never_persisted.1 baseState [("ctx", "secret")],
    claim_C5_credentials_never_persisted.2.2 false c5S c5World
      (unmarshallConfigOp false c5S c5World).1
      (unmarshallConfigOp false c5S c5World).2.1 4 rfl rfl⟩

/-- A pre-existing `workflow_meta.yaml` whose mtime (5) and ctime (7)
differ, as after a metadata change (chmod, chown, rename) or a copy that
preserved the modification time. -/
def c9File : MetaFile ConfigContent :=
  ⟨.content (buildWorkflowMeta baseState), 5, 7, false⟩

/-- A `meta/` directory containing only that file. -/
def c9World : World := { fs := ⟨some c9File, none, none, none⟩, now := 9 }

/-- Counterexample to claim C9: `marshallConfig` over a pre-existing
non-empty `workflow_meta.yaml` does not rewrite it and stores
`os.path.getctime` (7) in `configMarshalled`, while the file's
modification time is 5; the claim says the stored timestamp equals the
mtime. -/
theorem claim_C9_counterexample :
    (marshallConfigOp false baseState c9World).2.2 = .ok (some (.ts 7))
    ∧ (marshallConfigOp false baseState c9World).1.configMarshalled
        = some (.ts 7)
    ∧ c9World.fs.configFile.map MetaFile.mtime = some 5
    ∧ MarshalVal.ts 7 ≠ MarshalVal.ts 5 :=
  ⟨rfl, rfl, rfl, by decide⟩

/-- Claim C9 (amended): for every lifecycle stage, the timestamp a
successful marshall/unmarshall stores in the corresponding
`MarshallingStatus` field equals the `os.path.getctime` status-change time
of that stage's marshalled file under `meta/` — which coincides with the
mtime for freshly written files but not in general. -/
theorem claim_C9_amended :
    (∀ (ov : Bool) (s : WFState) (w : World) (s' : WFState) (w' : World)
        (t : Nat), s.configMarshalled = none →
      marshallConfigOp ov s w = (s', w', .ok (some (.ts t))) →
      s'.configMarshalled = some (.ts t)
      ∧ w'.fs.configFile.map MetaFile.ctime = some t)
    ∧ (∀ (fo : Bool) (s : WFState) (w : World) (s' : WFState) (w' : World)
        (t : Nat), s.configMarshalled = none →
      unmarshallConfigOp fo s w = (s', w', .ok (some (.ts t))) →
      s'.configMarshalled = some (.ts t)
      ∧ w'.fs.configFile.map MetaFile.ctime = some t)
    ∧ (∀ (eo ov : Bool) (s : WFState) (w : World) (s' : WFState) (w' : World)
        (t : Nat), s.stageMarshalled = none →
      marshallStageOp eo ov s w = (s', w', .ok (some (.ts t))) →
      s'.stageMarshalled = some (.ts t)
      ∧ w'.fs.stageFile.map MetaFile.ctime = some t)
    ∧ (∀ (off fo : Bool) (s : WFState) (w : World) (s' : WFState) (w' : World)
        (t : Nat), s.stageMarshalled = none →
      unmarshallStageOp off fo s w = (s', w', .ok (some (.ts t))) →
      s'.stageMarshalled = some (.ts t)
      ∧ w'.fs.stageFile.map MetaFile.ctime = some t)
    ∧ (∀ (eo ov : Bool) (s : WFState) (w : World) (s' : WFState) (w' : World)
        (t : Nat), s.executionMarshalled = none →
      marshallExecuteOp eo ov s w = (s', w', .ok (some (.ts t))) →
      s'.executionMarshalled = some (.ts t)
      ∧ w'.fs.executionFile.map MetaFile.ctime = some t)
    ∧ (∀ (off fo : Bool) (s : WFState) (w : World) (s' : WFState) (w' : World)
        (t : Nat), s.executionMarshalled = none →
      unmarshallExecuteOp off fo s w = (s', w', .ok (some (.ts t))) →
      s'.executionMarshalled = some (.ts t)
      ∧ w'.fs.executionFile.map MetaFile.ctime = some t)
    ∧ (∀ (eo ov : Bool) (s : WFState) (w : World) (s' : WFState) (w' : World)
        (t : Nat), s.exportMarshalled = none →
      marshallExportOp eo ov s w = (s', w', .ok (some (.ts t))) →
      s'.exportMarshalled = some (.ts t)
      ∧ w'.fs.exportFile.map MetaFile.ctime = some t)
    ∧ (∀ (off fo : Bool) (s : WFState) (w : World) (s' : WFState) (w' : World)
        (t : Nat), s.exportMarshalled = none →
      unmarshallExportOp off fo s w = (s', w', .ok (some (.ts t))) →
      s'.exportMarshalled = some (.ts t)
      ∧ w'.fs.exportFile.map MetaFile.ctime = some t) := by
  refine ⟨?_, ?_, ?_, ?_, ?_, ?_, ?_, ?_⟩
  · intro ov s w s' w' t hs h
    unfold marshallConfigOp at h
    repeat' split at h
    all_goals
      simp only [Prod.mk.injEq] at h
      obtain ⟨rfl, rfl, hr⟩ := h
      first
        | (injection hr with h1
           refine ⟨?_, ?_⟩ <;> simp_all [writeConfigFile])
        | (cases hr)
  · intro fo s w s' w' t hs h
    unfold unmarshallConfigOp at h
    repeat' split at h
    all_goals
      simp only [Prod.mk.injEq] at h
      obtain ⟨rfl, rfl, hr⟩ := h
      first
        | (injection hr with h1
           refine ⟨?_, ?_⟩ <;> simp_all)
        | (cases hr)
  · intro eo ov s w s' w' t hs h
    rcases hmc : marshallConfigOp ov s w with ⟨s1, w1, r1⟩
    unfold marshallStageOp at h
    rw [hmc] at h
    rcases r1 with e | r1 <;>
      · dsimp only [] at h
        repeat' split at h
        all_goals
          simp only [Prod.mk.injEq] at h
          obtain ⟨rfl, rfl, hr⟩ := h
          first
            | (injection hr with h1
               refine ⟨?_, ?_⟩ <;> simp_all [writeStageFile])
            | (cases hr)
  · intro off fo s w s' w' t hs h
    rcases hmc : unmarshallConfigOp fo s w with ⟨s1, w1, r1⟩
    unfold unmarshallStageOp at h
    rw [hmc] at h
    rcases r1 with e | r1 <;>
      · dsimp only [] at h
        repeat' split at h
        all_goals
          simp only [Prod.mk.injEq] at h
          obtain ⟨rfl, rfl, hr⟩ := h
          first
            | (injection hr with h1
               refine ⟨?_, ?_⟩ <;> simp_all)
            | (cases hr)
  · intro eo ov s w s' w' t hs h
    rcases hms : marshallStageOp eo ov s w with ⟨s1, w1, r1⟩
    unfold marshallExecuteOp at h
    rw [hms] at h
    rcases r1 with e | r1 <;>
      · dsimp only [] at h
        repeat' split at h
        all_goals
          simp only [Prod.mk.injEq] at h
          obtain ⟨rfl, rfl, hr⟩ := h
          first
            | (injection hr with h1
               refine ⟨?_, ?_⟩ <;> simp_all [writeExecutionFile])
            | (cases hr)
  · intro off fo s w s' w' t hs h
    rcases hus : unmarshallStageOp off fo s w with ⟨s1, w1, r1⟩
    unfold unmarshallExecuteOp at h
    rw [hus] at h
    rcases r1 with e | r1 <;>
      · dsimp only [] at h
        repeat' split at h
        all_goals
          simp only [Prod.mk.injEq] at h
          obtain ⟨rfl, rfl, hr⟩ := h
          first
            | (injection hr with h1
               refine ⟨?_, ?_⟩ <;> simp_all)
            | (cases hr)
  · intro eo ov s w s' w' t hs h
    rcases hms : marshallStageOp eo ov s w with ⟨s1, w1, r1⟩
    unfold marshallExportOp at h
    rw [hms] at h
    rcases r1 with e | r1 <;>
      · dsimp only [] at h
        repeat' split at h
        all_goals
          simp only [Prod.mk.injEq] at h
          obtain ⟨rfl, rfl, hr⟩ := h
          first
            | (injection hr with h1
               refine ⟨?_, ?_⟩ <;> simp_all [writeExportFile])
            | (cases hr)
  · intro off fo s w s' w' t hs h
    rcases hus : unmarshallStageOp off fo s w with ⟨s1, w1, r1⟩
    unfold unmarshallExportOp at h
    rw [hus] at h
    rcases r1 with e | r1 <;>
      · dsimp only [] at h
        repeat' split at h
        all_goals
          simp only [Prod.mk.injEq] at h
          obtain ⟨rfl, rfl, hr⟩ := h
          first
            | (injection hr with h1
               refine ⟨?_, ?_⟩ <;> simp_all)
            | (cases hr)

/-- Witness for `claim_C9_amended` at a concrete input: over `c9World` the
stored timestamp is the existing file's ctime 7. -/
theorem claim_C9_witness :
    baseState.configMarshalled = none
    ∧ ((marshallConfigOp false baseState c9World).1.configMarshalled
          = some (.ts 7)
        ∧ (marshallConfigOp false baseState c9World).2.1.fs.configFile.map
            MetaFile.ctime = some 7) :=
  ⟨rfl, claim_C9_amended.1 false baseState c9World
      (marshallConfigOp false baseState c9World).1
      (marshallConfigOp false baseState c9World).2.1 7 rfl rfl⟩

/-- Claim C10: `exportResults` is not atomic on partial failure.  When the
filtered actions hold at least one success (whose plugin `push` already
ran) and at least one failure, and `fail_ok` is unset, the call raises
`ExportActionException` with state and world exactly as the precondition
prelude left them: the successes are neither appended to
`runExportActions` nor marshalled into the export state file. -/
theorem claim_C10_export_not_atomic (acts : List ExportActionM)
    (ids : List String) (s s1 : WFState) (w w1 : World)
    (hpre : exportPrelude s w = (s1, w1, .ok ()))
    (hsucc : (filterActions ids acts).filterMap (fun a => a.outcome) ≠ [])
    (hfail : (filterActions ids acts).filter (fun a => a.outcome.isNone)
        ≠ []) :
    exportResultsOp (some acts) ids false s w
      = (s1, w1, .error .exportActionException) := by
  unfold exportResultsOp
  rw [hpre]
  dsimp only []
  split
  · rfl
  · rename_i hcond
    exact absurd ⟨by simpa using List.length_pos.mpr hfail, by simp⟩ hcond

/-- An instance whose execution and export timestamps are already set, so
the `exportResults` prelude succeeds without touching anything. -/
def c10S : WFState := { baseState with
  executionMarshalled := some (.ts 2)
  exportMarshalled := some (.ts 3) }

/-- Witness for `claim_C10_export_not_atomic` at a concrete input: of two
actions one push succeeds and one fails; with `fail_ok` unset the call
raises and leaves state and world untouched. -/
theorem claim_C10_witness :
    exportResultsOp (some [⟨"a1", some "m1"⟩, ⟨"a2", none⟩]) [] false
        c10S emptyWorld
      = (c10S, emptyWorld, .error .exportActionException) :=
  claim_C10_export_not_atomic [⟨"a1", some "m1"⟩, ⟨"a2", none⟩] [] c10S c10S
    emptyWorld emptyWorld rfl (by decide) (by decide)

end WfExS
